import Mathlib

/-! location_finder.

A shallow embedding of the search worker `SearchThread` (`parseCoordinatesFromRow`, `run`)
and of `MainWindow::resolveCoordinateColumns` from `src/mainwindow.cpp`, followed by the
properties of the bounded-box scan proved about them.

Conventions of the embedding.

* A `QString` is its list of characters, a `QStringList` a list of those.
* The Qt text functions whose bodies are not part of the repository (`trimmed`, `toLower`,
  the split on the regular expression `\s+`, `toDouble`) are the fields of `QtText`; every
  theorem holds for all of them, and `qtAscii` is a concrete instance that can be evaluated.
* A `double` is a `Double`, an IEEE 754 binary64 value; sums and differences are rounded
  to nearest, ties to even.
* The file is opened in text mode (`QIODevice::Text`), in which the text stream drops
  every carriage return before it cuts lines.
* An `int` is an `Int`; where a value can leave the 32-bit range (`linesProcessed`,
  `linesProcessed * 100`) it is wrapped by `wrapInt32`.
* Signals are collected, in emission order, in the list `Outcome.events`.
* `shouldStop k` is the value the `k`-th call of `SearchThread::shouldStop` returns.
-/

namespace LocationFinder

set_option maxRecDepth 8000

/-- A `QString`, as the list of its characters. -/
abbrev QString := List Char

/-- A `QStringList`. -/
abbrev QStringList := List QString

/-! ## The type `double` -/

/-- An IEEE 754 binary64 value, the `double` of the source. Every finite `double` is a
whole multiple of `2 ^ (-1074)`, and `finite n` is the `double` of value
`n * 2 ^ (-1074)`. The two zeros are one value here (they compare equal). -/
inductive Double
  | finite (n : Int)
  | posInf
  | negInf
  | nan
deriving DecidableEq, Repr

/-- The number of binary digits of `n`, with `fuel` steps left: 64 digits at a time while
`n` has more than 64, then one at a time. -/
def bitLengthAux : Nat → Nat → Nat
  | 0, _ => 0
  | fuel + 1, n =>
    if n = 0 then 0
    else if n < 18446744073709551616 then bitLengthAux fuel (n / 2) + 1
    else bitLengthAux fuel (n / 18446744073709551616) + 64

/-- The number of binary digits of `n`: the least `l` with `n < 2 ^ l`. -/
def bitLength (n : Nat) : Nat :=
  bitLengthAux n n

/-- The quotient `num / den` rounded to 53 significant binary digits, to nearest and ties
to even (IEEE 754 `roundTiesToEven`). All numbers count units of `2 ^ (-1074)`, so a
quotient below `2 ^ 53` is rounded to a whole number of units (the subnormal range and the
first normal binade), and a larger one to a multiple of `2 ^ shift`. `n <<< k` is
`n * 2 ^ k`. -/
def roundMagnitude (num den : Nat) : Nat :=
  let shift := bitLength (num / den) - 53
  let step := den <<< shift
  let q := num / step
  let r := num % step
  let q' := if 2 * r > step ∨ (2 * r = step ∧ q % 2 = 1) then q + 1 else q
  q' <<< shift

/-- The `double` nearest to plus or minus `num / den` units of `2 ^ (-1074)`; a rounded
magnitude of `2 ^ 1024` (that is `2 ^ 2098` units) or more overflows to an infinity. -/
def Double.ofMagnitude (negative : Bool) (num den : Nat) : Double :=
  let m := roundMagnitude num den
  if m ≥ 1 <<< 2098 then (if negative then Double.negInf else Double.posInf)
  else Double.finite (if negative then -(m : Int) else (m : Int))

/-- The `double` nearest to `k` units of `2 ^ (-1074)`. -/
def Double.round (k : Int) : Double :=
  Double.ofMagnitude (decide (k < 0)) k.natAbs 1

/-- The conversion of an `int` to `double`. -/
def Double.ofInt (i : Int) : Double :=
  Double.round (i * ((1 <<< 1074 : Nat) : Int))

/-- The negation of a `double`. -/
def Double.neg : Double → Double
  | Double.finite n => Double.finite (-n)
  | Double.posInf => Double.negInf
  | Double.negInf => Double.posInf
  | Double.nan => Double.nan

/-- The sum of two `double`s: the exact sum, rounded. -/
def Double.add : Double → Double → Double
  | Double.nan, _ => Double.nan
  | _, Double.nan => Double.nan
  | Double.posInf, Double.negInf => Double.nan
  | Double.negInf, Double.posInf => Double.nan
  | Double.posInf, _ => Double.posInf
  | Double.negInf, _ => Double.negInf
  | _, Double.posInf => Double.posInf
  | _, Double.negInf => Double.negInf
  | Double.finite a, Double.finite b => Double.round (a + b)

/-- The difference of two `double`s: the exact difference, rounded. -/
def Double.sub (a b : Double) : Double :=
  a.add b.neg

/-- The comparison `a <= b` of two `double`s; it is false when one of them is a NaN. -/
def Double.le : Double → Double → Bool
  | Double.nan, _ => false
  | _, Double.nan => false
  | Double.negInf, _ => true
  | _, Double.posInf => true
  | Double.posInf, _ => false
  | _, Double.negInf => false
  | Double.finite a, Double.finite b => decide (a ≤ b)

/-- The comparison `a >= b` of two `double`s. -/
def Double.ge (a b : Double) : Bool :=
  b.le a

/-- The rational number a finite `double` stands for (0 for the other values). -/
def Double.toRat : Double → ℚ
  | Double.finite n => (n : ℚ) / ((1 <<< 1074 : Nat) : ℚ)
  | _ => 0

/-! ## Text -/

/-- The Qt library text functions called by the source: `QString::trimmed`,
`QString::toLower`, `QString::split(QRegularExpression("\\s+"), Qt::SkipEmptyParts)` and
`QString::toDouble(&ok)`, where `none` stands for `ok == false`. -/
structure QtText where
  trimmed : QString → QString
  toLower : QString → QString
  splitSpaces : QString → QStringList
  toDouble : QString → Option Double

/-- `QString::split(',')` with the default `Qt::KeepEmptyParts`: the fields between the
commas, empty ones included; the empty string gives one empty field. -/
def splitComma : QString → QStringList
  | [] => [[]]
  | c :: cs =>
    if c = ',' then [] :: splitComma cs
    else
      match splitComma cs with
      | [] => [[c]]
      | f :: fs => (c :: f) :: fs

/-- The lines that successive `QTextStream::readLine` calls return for the unread
characters `cs`, where `cur` holds the characters of the line being read. The stream is
at its end (`atEnd()`, and `readLine()` returns a null string) exactly when nothing is
left; a line feed directly after another one, or at the start, gives an empty line, which
is not null. -/
def textLinesAux : QString → List Char → List QString
  | cur, [] => if cur = [] then [] else [cur]
  | cur, c :: cs =>
    if c = '\n' then cur :: textLinesAux [] cs
    else textLinesAux (cur ++ [c]) cs

/-- The sequence of lines the `QTextStream` of `run` reads from a file with the given
text. The file is opened with `QIODevice::Text`, so the stream removes every `'\r'` from
what it reads, and cuts lines at the line feeds of what is left. The text is taken as a
whole: the block-wise filling of the stream's buffer is not modelled. -/
def textLines (content : List Char) : List QString :=
  textLinesAux [] (content.filter (fun c => c ≠ '\r'))

/-- The signals of `SearchThread`. -/
inductive Event
  | progressChanged (value : Int)
  | dataReady (data : List QStringList)
  | errorOccurred (message : String)
deriving DecidableEq, Repr

/-- Wraps an integer into the range of a 32-bit `int`. -/
def wrapInt32 (v : Int) : Int :=
  (v + 2147483648) % 4294967296 - 2147483648

/-- The configuration members of `SearchThread` that `run` reads. -/
structure SearchThread where
  totalLinesCount_ : Int
  lagValue_ : Int
  centerX_ : Double
  centerY_ : Double
  centerZ_ : Double
  relativeLocationColumn_ : Int
  xColumn_ : Int
  yColumn_ : Int
  zColumn_ : Int
deriving Repr

/-- The locals of `SearchThread::run` that change in its loop. -/
structure ScanState where
  linesProcessed : Int
  foundCount : Int
  searchResult : List QStringList
deriving DecidableEq, Repr

/-- What one call of `SearchThread::run` does: the signals it emits, in order, and the
locals when it returns. -/
structure Outcome where
  events : List Event
  state : ScanState
deriving DecidableEq, Repr

/-- `fields.at(i)` for an `int` index. -/
def fieldAt (fields : QStringList) (i : Int) : QString :=
  fields.getD i.toNat []

/-- `SearchThread::parseCoordinatesFromRow`: the three values when it returns `true`,
`none` when it returns `false`. -/
def SearchThread.parseCoordinatesFromRow (qt : QtText) (t : SearchThread)
    (fields : QStringList) : Option (Double × Double × Double) :=
  if t.relativeLocationColumn_ ≥ 0 then
    if t.relativeLocationColumn_ ≥ (fields.length : Int) then none
    else
      let parts := qt.splitSpaces (qt.trimmed (fieldAt fields t.relativeLocationColumn_))
      if parts.length ≠ 3 then none
      else
        match qt.toDouble (parts.getD 0 []), qt.toDouble (parts.getD 1 []),
            qt.toDouble (parts.getD 2 []) with
        | some vx, some vy, some vz => some (vx, vy, vz)
        | _, _, _ => none
  else if t.xColumn_ < 0 ∨ t.yColumn_ < 0 ∨ t.zColumn_ < 0 then none
  else if t.xColumn_ ≥ (fields.length : Int) ∨ t.yColumn_ ≥ (fields.length : Int)
      ∨ t.zColumn_ ≥ (fields.length : Int) then none
  else
    match qt.toDouble (qt.trimmed (fieldAt fields t.xColumn_)),
        qt.toDouble (qt.trimmed (fieldAt fields t.yColumn_)),
        qt.toDouble (qt.trimmed (fieldAt fields t.zColumn_)) with
    | some vx, some vy, some vz => some (vx, vy, vz)
    | _, _, _ => none

/-- The window test of `run`: `valueX >= (centerX_ - lagValue_) && valueX <= (centerX_ +
lagValue_)` and the same for `y` and `z`, where `lagValue_` is converted to `double` and
the difference and the sum are `double` operations. -/
def SearchThread.inWindow (t : SearchThread) (vx vy vz : Double) : Bool :=
  vx.ge (t.centerX_.sub (Double.ofInt t.lagValue_)) &&
  vx.le (t.centerX_.add (Double.ofInt t.lagValue_)) &&
  vy.ge (t.centerY_.sub (Double.ofInt t.lagValue_)) &&
  vy.le (t.centerY_.add (Double.ofInt t.lagValue_)) &&
  vz.ge (t.centerZ_.sub (Double.ofInt t.lagValue_)) &&
  vz.le (t.centerZ_.add (Double.ofInt t.lagValue_))

/-- The nested conditions of the loop body of `run` under which a row is pushed to
`searchResult`: the field count is the header's, the coordinates parse, and they lie in the
window. -/
def SearchThread.rowMatches (qt : QtText) (t : SearchThread) (headers fields : QStringList) :
    Bool :=
  if fields.length = headers.length then
    match t.parseCoordinatesFromRow qt fields with
    | some (vx, vy, vz) => t.inWindow vx vy vz
    | none => false
  else false

/-- The local `maxLines` of `run`. -/
def SearchThread.maxLines (t : SearchThread) : Int :=
  max 1 t.totalLinesCount_

/-- The local `progress` of `run`, `std::min(100, (linesProcessed * 100) / maxLines)` in
32-bit `int` arithmetic, the division truncating. -/
def SearchThread.progress (t : SearchThread) (linesProcessed : Int) : Int :=
  min 100 (Int.tdiv (wrapInt32 (linesProcessed * 100)) t.maxLines)

/-- The `while (!in.atEnd())` loop of `run` and the `emit dataReady` after it, on the lines
still unread. `poll` counts the calls of `shouldStop` made so far. -/
def SearchThread.scanLoop (qt : QtText) (t : SearchThread) (shouldStop : Nat → Bool)
    (headers : QStringList) : Nat → ScanState → List QString → Outcome
  | _, st, [] => ⟨[Event.dataReady st.searchResult], st⟩
  | poll, st, line :: rest =>
    if shouldStop poll then ⟨[], st⟩
    else
      let fields := splitComma line
      let st1 : ScanState := { st with linesProcessed := wrapInt32 (st.linesProcessed + 1) }
      if t.rowMatches qt headers fields then
        let st2 : ScanState :=
          { st1 with searchResult := st1.searchResult ++ [fields],
                     foundCount := st1.foundCount + 1 }
        if st2.foundCount ≥ 100 then
          ⟨[Event.progressChanged 100, Event.dataReady st2.searchResult], st2⟩
        else
          let o := SearchThread.scanLoop qt t shouldStop headers (poll + 1) st2 rest
          ⟨Event.progressChanged (t.progress st2.linesProcessed) :: o.events, o.state⟩
      else
        let o := SearchThread.scanLoop qt t shouldStop headers (poll + 1) st1 rest
        ⟨Event.progressChanged (t.progress st1.linesProcessed) :: o.events, o.state⟩

/-- The part of `SearchThread::run` after the file is open, on the lines of the stream. -/
def SearchThread.runLines (qt : QtText) (t : SearchThread) (shouldStop : Nat → Bool) :
    List QString → Outcome
  | [] => ⟨[Event.errorOccurred "CSV file is empty."], ⟨0, 0, []⟩⟩
  | headerLine :: rest =>
    let headers := splitComma headerLine
    t.scanLoop qt shouldStop headers 0 ⟨0, 0, [headers]⟩ rest

/-- `SearchThread::run`. The file is `none` when it cannot be opened and its text
otherwise. -/
def SearchThread.run (qt : QtText) (t : SearchThread) (shouldStop : Nat → Bool) :
    Option (List Char) → Outcome
  | none => ⟨[Event.errorOccurred "Could not open CSV file."], ⟨0, 0, []⟩⟩
  | some content => t.runLines qt shouldStop (textLines content)

/-- The coordinate column members of `MainWindow`. -/
structure Columns where
  relativeLocationColumn : Int
  xColumn : Int
  yColumn : Int
  zColumn : Int
deriving DecidableEq, Repr

/-- The name a header is compared under: `headers.at(i).trimmed().toLower()`. -/
def headerName (qt : QtText) (h : QString) : QString :=
  qt.toLower (qt.trimmed h)

/-- The header names of the combined column. -/
def isCombinedName (n : QString) : Bool :=
  n == "relativelocation".toList || n == "relative_location".toList

/-- The `for` loop of `resolveCoordinateColumns`, at index `i` with the headers from `i`
on still to visit. -/
def resolveLoop (qt : QtText) : Nat → List QString → Columns → Columns
  | _, [], c => c
  | i, h :: hs, c =>
    let header := headerName qt h
    if isCombinedName header then
      resolveLoop qt (i + 1) hs { c with relativeLocationColumn := (i : Int) }
    else if header = ['x'] then
      resolveLoop qt (i + 1) hs { c with xColumn := (i : Int) }
    else if header = ['y'] then
      resolveLoop qt (i + 1) hs { c with yColumn := (i : Int) }
    else if header = ['z'] then
      resolveLoop qt (i + 1) hs { c with zColumn := (i : Int) }
    else
      resolveLoop qt (i + 1) hs c

/-- `MainWindow::resolveCoordinateColumns`: the value returned and the column members it
leaves (the warning dialog is not modelled). -/
def resolveCoordinateColumns (qt : QtText) (headers : QStringList) : Bool × Columns :=
  let c := resolveLoop qt 0 headers ⟨-1, -1, -1, -1⟩
  if c.relativeLocationColumn ≥ 0 then (true, c)
  else if c.xColumn ≥ 0 ∧ c.yColumn ≥ 0 ∧ c.zColumn ≥ 0 then (true, c)
  else (false, c)

/-- The white space characters of `\s`: space, tab, line feed, vertical tab, form feed and
carriage return. -/
def isSpaceChar (c : Char) : Bool :=
  c = ' ' || c = '\t' || c = '\n' || c = '\r' || c = '\x0b' || c = '\x0c'

/-- The string without the white space at its two ends. -/
def asciiTrimmed (s : QString) : QString :=
  ((s.dropWhile isSpaceChar).reverse.dropWhile isSpaceChar).reverse

/-- The lower-case letter of an upper-case ASCII letter, every other character itself. -/
def asciiLowerChar (c : Char) : Char :=
  if 'A' ≤ c ∧ c ≤ 'Z' then Char.ofNat (c.toNat + 32) else c

/-- The string with its ASCII letters in lower case. -/
def asciiToLower (s : QString) : QString :=
  s.map asciiLowerChar

/-- The non-empty pieces between runs of white space; `cur` is the piece being read. -/
def splitSpacesAux : QString → QString → QStringList
  | cur, [] => if cur = [] then [] else [cur]
  | cur, c :: cs =>
    if isSpaceChar c then
      if cur = [] then splitSpacesAux [] cs else cur :: splitSpacesAux [] cs
    else splitSpacesAux (cur ++ [c]) cs

/-- The number written by a list of decimal digits, read after the value `acc`. -/
def digitsValue : Nat → List Char → Option Nat
  | acc, [] => some acc
  | acc, c :: cs =>
    if c.isDigit then digitsValue (acc * 10 + (c.toNat - 48)) cs else none

/-- The `double` of an unsigned decimal numeral with the given sign: digits, then
possibly a point and digits; the exact value is rounded to the nearest `double`. -/
def unsignedDecimal (negative : Bool) (s : QString) : Option Double :=
  let intPart := s.takeWhile Char.isDigit
  if intPart = [] then none
  else
    match s.dropWhile Char.isDigit with
    | [] => (digitsValue 0 intPart).map (fun a => Double.ofMagnitude negative (a <<< 1074) 1)
    | '.' :: fracPart =>
      if fracPart = [] then none
      else
        match digitsValue 0 intPart, digitsValue 0 fracPart with
        | some a, some b =>
          some (Double.ofMagnitude negative ((a * 10 ^ fracPart.length + b) <<< 1074)
            (10 ^ fracPart.length))
        | _, _ => none
    | _ => none

/-- The `double` of a decimal numeral with an optional sign; `none` for every other
string. These are among the strings `QString::toDouble` accepts. -/
def decimalToDouble : QString → Option Double
  | '-' :: s => unsignedDecimal true s
  | '+' :: s => unsignedDecimal false s
  | s => unsignedDecimal false s

/-- The Qt text functions on ASCII text with plain decimal numerals. -/
def qtAscii : QtText where
  trimmed := asciiTrimmed
  toLower := asciiToLower
  splitSpaces := splitSpacesAux []
  toDouble := decimalToDouble

/-! ## Vocabulary of the statements -/

/-- The condition of `run` for pushing a row, on a line of the file. -/
def SearchThread.lineMatches (qt : QtText) (t : SearchThread) (headers : QStringList)
    (line : QString) : Bool :=
  t.rowMatches qt headers (splitComma line)

/-- The rows of the lines that pass the condition of `run`, in file order. -/
def SearchThread.matchedRows (qt : QtText) (t : SearchThread) (headers : QStringList)
    (lines : List QString) : List QStringList :=
  (lines.filter (t.lineMatches qt headers)).map splitComma

/-- The value of `linesProcessed` after `n` more increments. -/
def countedAfter : Int → Nat → Int
  | lp, 0 => lp
  | lp, n + 1 => countedAfter (wrapInt32 (lp + 1)) n

/-- The `progressChanged` signals of `n` loop rounds that each end in the progress
formula, starting with `linesProcessed = lp`. -/
def SearchThread.progressTrail (t : SearchThread) : Int → Nat → List Event
  | _, 0 => []
  | lp, n + 1 =>
    Event.progressChanged (t.progress (wrapInt32 (lp + 1))) ::
      SearchThread.progressTrail t (wrapInt32 (lp + 1)) n

/-- The payloads of the `dataReady` signals among the events. -/
def dataReadyOf : List Event → List (List QStringList)
  | [] => []
  | Event.dataReady d :: es => d :: dataReadyOf es
  | _ :: es => dataReadyOf es

/-- The messages of the `errorOccurred` signals among the events. -/
def errorsOf : List Event → List String
  | [] => []
  | Event.errorOccurred m :: es => m :: errorsOf es
  | _ :: es => errorsOf es

/-- The values of the `progressChanged` signals among the events. -/
def progressOf : List Event → List Int
  | [] => []
  | Event.progressChanged v :: es => v :: progressOf es
  | _ :: es => progressOf es

/-- The shouldStop polls of a scan that is never cancelled. -/
def neverStop : Nat → Bool :=
  fun _ => false

/-- The loop state after the lines `pre` were processed without a stop and below the cap. -/
def SearchThread.stateAfter (qt : QtText) (t : SearchThread) (headers : QStringList)
    (st : ScanState) (pre : List QString) : ScanState :=
  ⟨countedAfter st.linesProcessed pre.length,
    st.foundCount + ((t.matchedRows qt headers pre).length : Int),
    st.searchResult ++ t.matchedRows qt headers pre⟩

/-- The window the code tests: on each axis the value is at least the `double` difference
of centre and lag and at most their `double` sum, the two ends included. -/
def SearchThread.InComputedWindow (t : SearchThread) (x y z : Double) : Prop :=
  (t.centerX_.sub (Double.ofInt t.lagValue_)).le x = true ∧
  x.le (t.centerX_.add (Double.ofInt t.lagValue_)) = true ∧
  (t.centerY_.sub (Double.ofInt t.lagValue_)).le y = true ∧
  y.le (t.centerY_.add (Double.ofInt t.lagValue_)) = true ∧
  (t.centerZ_.sub (Double.ofInt t.lagValue_)).le z = true ∧
  z.le (t.centerZ_.add (Double.ofInt t.lagValue_)) = true

/-- The closed window in exact arithmetic, for finite values: on each axis the number the
value stands for lies between the number of the centre minus the lag and the number of the
centre plus the lag. -/
def SearchThread.InExactWindow (t : SearchThread) (x y z : Double) : Prop :=
  t.centerX_.toRat - (t.lagValue_ : ℚ) ≤ x.toRat ∧ x.toRat ≤ t.centerX_.toRat + (t.lagValue_ : ℚ) ∧
  t.centerY_.toRat - (t.lagValue_ : ℚ) ≤ y.toRat ∧ y.toRat ≤ t.centerY_.toRat + (t.lagValue_ : ℚ) ∧
  t.centerZ_.toRat - (t.lagValue_ : ℚ) ≤ z.toRat ∧ z.toRat ≤ t.centerZ_.toRat + (t.lagValue_ : ℚ)

/-- A qualifying data line: it is well-formed (as many fields as the header), its
coordinates parse, and they lie in the window the code tests. -/
def SearchThread.Qualifies (qt : QtText) (t : SearchThread) (headers : QStringList)
    (line : QString) : Prop :=
  (splitComma line).length = headers.length ∧
  ∃ x y z : Double, t.parseCoordinatesFromRow qt (splitComma line) = some (x, y, z) ∧
    t.InComputedWindow x y z

/-- A malformed data line: its field count differs from the header's, or, in the combined
encoding, the designated field does not hold exactly three tokens that all parse, or, in
the separate encoding, one of the three designated fields does not parse. -/
def SearchThread.Malformed (qt : QtText) (t : SearchThread) (headers : QStringList)
    (line : QString) : Prop :=
  (splitComma line).length ≠ headers.length ∨
  (0 ≤ t.relativeLocationColumn_ ∧
    ((qt.splitSpaces (qt.trimmed (fieldAt (splitComma line) t.relativeLocationColumn_))).length ≠ 3 ∨
      ∃ p ∈ qt.splitSpaces (qt.trimmed (fieldAt (splitComma line) t.relativeLocationColumn_)),
        qt.toDouble p = none)) ∨
  (t.relativeLocationColumn_ < 0 ∧
    (qt.toDouble (qt.trimmed (fieldAt (splitComma line) t.xColumn_)) = none ∨
      qt.toDouble (qt.trimmed (fieldAt (splitComma line) t.yColumn_)) = none ∨
      qt.toDouble (qt.trimmed (fieldAt (splitComma line) t.zColumn_)) = none))

/-- The search of the first example scenario: separate columns `id,x,y,z`, centre
`(0, 0, 0)`, lag 100, two data lines. -/
def scenario1Thread : SearchThread :=
  ⟨2, 100, Double.finite 0, Double.finite 0, Double.finite 0, -1, 1, 2, 3⟩

/-- The search of the second example scenario: the combined column of the header
`id,relativeLocation`, centre `(5, 5, 5)`, lag 0, one data line. -/
def scenario2Thread : SearchThread :=
  ⟨1, 0, Double.ofInt 5, Double.ofInt 5, Double.ofInt 5, 1, -1, -1, -1⟩

/-- The value a column member ends with when the loop of `resolveCoordinateColumns` assigns
it the index of every header that satisfies `p`: the loop at index `i`, the member holding
`cur`. -/
def lastIndexFrom (p : QString → Bool) : Nat → List QString → Int → Int
  | _, [], cur => cur
  | i, h :: hs, cur => lastIndexFrom p (i + 1) hs (if p h then (i : Int) else cur)

/-- The index `idx` is the highest index of a header that satisfies `p`, and `-1` when no
header satisfies it. -/
def IsLastMatch (p : QString → Prop) (headers : QStringList) (idx : Int) : Prop :=
  (idx = -1 ∧ ∀ h ∈ headers, ¬ p h) ∨
  (∃ i : Nat, idx = (i : Int) ∧ (∃ h, headers[i]? = some h ∧ p h) ∧
    ∀ (j : Nat) (h' : QString), i < j → headers[j]? = some h' → ¬ p h')

/-- A search over a file of 21474837 data lines, the count `loadCsvData` stores in
`totalLinesCount`: separate columns `x,y,z`, centre `(0, 0, 0)`, lag 0. -/
def longFileThread : SearchThread :=
  ⟨21474837, 0, Double.finite 0, Double.finite 0, Double.finite 0, -1, 0, 1, 2⟩

/-- The `double` nearest to 0.1, `3602879701896397 * 2 ^ (-55)`. -/
def doubleTenth : Double :=
  Double.finite ((3602879701896397 <<< 1019 : Nat) : Int)

/-- The `double` nearest to 0.3, `5404319552844595 * 2 ^ (-54)`. -/
def doubleThreeTenths : Double :=
  Double.finite ((5404319552844595 <<< 1020 : Nat) : Int)

/-- A search with separate columns `x,y,z`, centre `(0.1, 0, 0)` and lag 1. -/
def tenthThread : SearchThread :=
  ⟨1, 1, doubleTenth, Double.finite 0, Double.finite 0, -1, 0, 1, 2⟩

/-- A search with separate columns `x,y,z`, centre `(0.3, 0, 0)` and lag 1. -/
def threeTenthsThread : SearchThread :=
  ⟨1, 1, doubleThreeTenths, Double.finite 0, Double.finite 0, -1, 0, 1, 2⟩

/-- The text of a file with the header `id,x,y,z` and 101 data lines `1,0,0,0`. -/
def cappedFile : List Char :=
  "id,x,y,z\n".toList ++ (List.replicate 101 "1,0,0,0\n".toList).flatten


/-! ## Rounding to `double` -/

theorem bitLengthAux_zero (fuel : Nat) : bitLengthAux fuel 0 = 0 := by
  cases fuel <;> simp [bitLengthAux]

theorem bitLengthAux_spec :
    ∀ (fuel n : Nat), n ≤ fuel →
      n < 2 ^ bitLengthAux fuel n ∧ (0 < n → 2 ^ (bitLengthAux fuel n - 1) ≤ n) := by
  intro fuel
  induction fuel with
  | zero =>
    intro n hn
    have : n = 0 := by omega
    subst this
    simp [bitLengthAux]
  | succ fuel ih =>
    intro n hn
    rw [bitLengthAux]
    by_cases h0 : n = 0
    · subst h0; simp
    · rw [if_neg h0]
      by_cases hsmall : n < 18446744073709551616
      · rw [if_pos hsmall]
        obtain ⟨hlt, hle⟩ := ih (n / 2) (by omega)
        refine ⟨?_, fun _ => ?_⟩
        · rw [pow_succ]; omega
        · simp only [Nat.add_sub_cancel]
          by_cases hhalf : n / 2 = 0
          · rw [hhalf, bitLengthAux_zero]; simp; omega
          · have h1 := hle (by omega)
            have hb : bitLengthAux fuel (n / 2) ≠ 0 := by
              intro hb
              rw [hb] at hlt
              simp at hlt
              exact hhalf hlt
            have : 2 ^ bitLengthAux fuel (n / 2) =
                2 * 2 ^ (bitLengthAux fuel (n / 2) - 1) := by
              rw [← pow_succ']; congr 1; omega
            omega
      · rw [if_neg hsmall]
        have hq : 0 < n / 18446744073709551616 := Nat.div_pos (by omega) (by decide)
        obtain ⟨hlt, hle⟩ := ih (n / 18446744073709551616) (by omega)
        have h1 := hle hq
        have hb : bitLengthAux fuel (n / 18446744073709551616) ≠ 0 := by
          intro hb
          rw [hb] at hlt
          simp at hlt
          omega
        have e64 : (2 : Nat) ^ 64 = 18446744073709551616 := by norm_num
        refine ⟨?_, fun _ => ?_⟩
        · rw [pow_add, e64]
          exact Nat.lt_mul_of_div_lt hlt (by decide : 0 < 18446744073709551616)
        · have hexp : bitLengthAux fuel (n / 18446744073709551616) + 64 - 1 =
              (bitLengthAux fuel (n / 18446744073709551616) - 1) + 64 := by omega
          rw [hexp, pow_add, e64]
          calc 2 ^ (bitLengthAux fuel (n / 18446744073709551616) - 1) * 18446744073709551616
              ≤ n / 18446744073709551616 * 18446744073709551616 :=
                Nat.mul_le_mul_right _ h1
            _ ≤ n := Nat.div_mul_le_self n _

theorem bitLength_lt (n : Nat) : n < 2 ^ bitLength n :=
  (bitLengthAux_spec n n (le_refl n)).1

theorem bitLength_le (n : Nat) (h : 0 < n) : 2 ^ (bitLength n - 1) ≤ n :=
  (bitLengthAux_spec n n (le_refl n)).2 h

theorem bitLength_mono {n m : Nat} (h : n ≤ m) : bitLength n ≤ bitLength m := by
  rcases Nat.eq_zero_or_pos n with h0 | hpos
  · subst h0
    simp [bitLength, bitLengthAux_zero]
  · by_contra hlt
    have h1 := bitLength_le n hpos
    have h2 := bitLength_lt m
    have h3 : 2 ^ bitLength m ≤ 2 ^ (bitLength n - 1) :=
      Nat.pow_le_pow_right (by decide) (by omega)
    omega

theorem roundMagnitude_one (n : Nat) :
    roundMagnitude n 1 =
      (if 2 * (n % 2 ^ (bitLength n - 53)) > 2 ^ (bitLength n - 53) ∨
          (2 * (n % 2 ^ (bitLength n - 53)) = 2 ^ (bitLength n - 53) ∧
            n / 2 ^ (bitLength n - 53) % 2 = 1)
        then n / 2 ^ (bitLength n - 53) + 1 else n / 2 ^ (bitLength n - 53)) *
        2 ^ (bitLength n - 53) := by
  simp only [roundMagnitude, Nat.shiftLeft_eq, Nat.div_one, Nat.one_mul]

theorem roundMagnitude_one_ge (n : Nat) :
    n / 2 ^ (bitLength n - 53) * 2 ^ (bitLength n - 53) ≤ roundMagnitude n 1 := by
  rw [roundMagnitude_one]
  apply Nat.mul_le_mul_right
  split_ifs <;> omega

theorem roundMagnitude_one_le (n : Nat) :
    roundMagnitude n 1 ≤ (n / 2 ^ (bitLength n - 53) + 1) * 2 ^ (bitLength n - 53) := by
  rw [roundMagnitude_one]
  apply Nat.mul_le_mul_right
  split_ifs <;> omega

theorem roundMagnitude_one_of_small (n : Nat) (h : bitLength n ≤ 53) :
    roundMagnitude n 1 = n := by
  rw [roundMagnitude_one]
  have hs : bitLength n - 53 = 0 := by omega
  simp [hs, Nat.mod_one]

theorem roundMagnitude_one_le_pow (n : Nat) : roundMagnitude n 1 ≤ 2 ^ bitLength n := by
  by_cases h : bitLength n ≤ 53
  · rw [roundMagnitude_one_of_small n h]
    exact le_of_lt (bitLength_lt n)
  · have hpow : 2 ^ bitLength n = 2 ^ 53 * 2 ^ (bitLength n - 53) := by
      rw [← pow_add]; congr 1; omega
    have hq : n / 2 ^ (bitLength n - 53) < 2 ^ 53 := by
      rw [Nat.div_lt_iff_lt_mul (by positivity)]
      rw [← hpow]
      exact bitLength_lt n
    calc roundMagnitude n 1 ≤ (n / 2 ^ (bitLength n - 53) + 1) * 2 ^ (bitLength n - 53) :=
          roundMagnitude_one_le n
      _ ≤ 2 ^ 53 * 2 ^ (bitLength n - 53) := Nat.mul_le_mul_right _ hq
      _ = 2 ^ bitLength n := hpow.symm

theorem pow_le_roundMagnitude_one (n : Nat) (hn : 0 < n) :
    2 ^ (bitLength n - 1) ≤ roundMagnitude n 1 := by
  by_cases h : bitLength n ≤ 53
  · rw [roundMagnitude_one_of_small n h]
    exact bitLength_le n hn
  · have hpow : 2 ^ (bitLength n - 1) = 2 ^ 52 * 2 ^ (bitLength n - 53) := by
      rw [← pow_add]; congr 1; omega
    have hq : 2 ^ 52 ≤ n / 2 ^ (bitLength n - 53) := by
      rw [Nat.le_div_iff_mul_le (by positivity), ← hpow]
      exact bitLength_le n hn
    calc 2 ^ (bitLength n - 1) = 2 ^ 52 * 2 ^ (bitLength n - 53) := hpow
      _ ≤ n / 2 ^ (bitLength n - 53) * 2 ^ (bitLength n - 53) := Nat.mul_le_mul_right _ hq
      _ ≤ roundMagnitude n 1 := roundMagnitude_one_ge n

/-- Rounding to 53 digits keeps the order. -/
theorem roundMagnitude_one_mono {n m : Nat} (h : n ≤ m) :
    roundMagnitude n 1 ≤ roundMagnitude m 1 := by
  rcases Nat.eq_zero_or_pos n with h0 | hpos
  · subst h0
    have : roundMagnitude 0 1 = 0 :=
      roundMagnitude_one_of_small 0 (by simp [bitLength, bitLengthAux_zero])
    omega
  · have hmpos : 0 < m := lt_of_lt_of_le hpos h
    have hL := bitLength_mono h
    rcases Nat.lt_or_eq_of_le hL with hlt | heq
    · calc roundMagnitude n 1 ≤ 2 ^ bitLength n := roundMagnitude_one_le_pow n
        _ ≤ 2 ^ (bitLength m - 1) := Nat.pow_le_pow_right (by decide) (by omega)
        _ ≤ roundMagnitude m 1 := pow_le_roundMagnitude_one m hmpos
    · have hD : 0 < 2 ^ (bitLength m - 53) := by positivity
      have hq : n / 2 ^ (bitLength m - 53) ≤ m / 2 ^ (bitLength m - 53) :=
        Nat.div_le_div_right h
      rcases Nat.lt_or_eq_of_le hq with hqlt | hqeq
      · calc roundMagnitude n 1
            ≤ (n / 2 ^ (bitLength n - 53) + 1) * 2 ^ (bitLength n - 53) :=
              roundMagnitude_one_le n
          _ = (n / 2 ^ (bitLength m - 53) + 1) * 2 ^ (bitLength m - 53) := by rw [heq]
          _ ≤ m / 2 ^ (bitLength m - 53) * 2 ^ (bitLength m - 53) :=
              Nat.mul_le_mul_right _ hqlt
          _ ≤ roundMagnitude m 1 := roundMagnitude_one_ge m
      · rw [roundMagnitude_one n, roundMagnitude_one m, heq, hqeq]
        apply Nat.mul_le_mul_right
        have hn := Nat.div_add_mod n (2 ^ (bitLength m - 53))
        have hm := Nat.div_add_mod m (2 ^ (bitLength m - 53))
        rw [hqeq] at hn
        have hr : n % 2 ^ (bitLength m - 53) ≤ m % 2 ^ (bitLength m - 53) := by omega
        split_ifs with h1 h2 h2 <;> omega

theorem Double.round_eq (k : Int) :
    Double.round k =
      if roundMagnitude k.natAbs 1 ≥ 1 <<< 2098 then
        (if k < 0 then Double.negInf else Double.posInf)
      else Double.finite (if k < 0 then -(roundMagnitude k.natAbs 1 : Int)
        else (roundMagnitude k.natAbs 1 : Int)) := by
  unfold Double.round Double.ofMagnitude
  by_cases hk : k < 0 <;> simp [hk]

theorem Double.round_ne_nan (k : Int) : Double.round k ≠ Double.nan := by
  rw [Double.round_eq]
  split_ifs <;> simp

theorem Double.le_self (d : Double) (h : d ≠ Double.nan) : d.le d = true := by
  cases d with
  | finite n => simp [Double.le]
  | posInf => rfl
  | negInf => rfl
  | nan => exact absurd rfl h

/-- Rounding to `double` keeps the order. -/
theorem Double.round_mono {a b : Int} (h : a ≤ b) :
    (Double.round a).le (Double.round b) = true := by
  rw [Double.round_eq a, Double.round_eq b]
  by_cases ha : a < 0
  · by_cases hb : b < 0
    · have hmono : roundMagnitude b.natAbs 1 ≤ roundMagnitude a.natAbs 1 :=
        roundMagnitude_one_mono (by omega)
      simp only [ha, hb, if_true]
      split_ifs with h1 h2 h2
      · rfl
      · rfl
      · omega
      · simp only [Double.le, decide_eq_true_eq]
        omega
    · simp only [ha, hb, if_true, if_false]
      split_ifs
      · rfl
      · rfl
      · rfl
      · simp only [Double.le, decide_eq_true_eq]
        omega
  · have hb : ¬ b < 0 := by omega
    have hmono : roundMagnitude a.natAbs 1 ≤ roundMagnitude b.natAbs 1 :=
      roundMagnitude_one_mono (by omega)
    simp only [ha, hb, if_false]
    split_ifs with h1 h2 h2
    · rfl
    · omega
    · rfl
    · simp only [Double.le, decide_eq_true_eq]
      omega

/-- For a finite centre and a lag that is not negative, the computed lower bound of the
window is at most the computed upper bound. -/
theorem window_bounds_le (cn lag : Int) (h : 0 ≤ lag) :
    ((Double.finite cn).sub (Double.ofInt lag)).le
      ((Double.finite cn).add (Double.ofInt lag)) = true := by
  have hk : ¬ lag * ((1 <<< 1074 : Nat) : Int) < 0 := by
    have : (0 : Int) ≤ ((1 <<< 1074 : Nat) : Int) := Int.natCast_nonneg _
    have := mul_nonneg h this
    omega
  unfold Double.ofInt
  rw [Double.round_eq]
  simp only [hk, if_false]
  split_ifs
  · rfl
  · simp only [Double.sub, Double.neg, Double.add]
    exact Double.round_mono (by omega)

/-- A value equal to one of the two computed bounds of the window passes both
comparisons. -/
theorem in_bounds_of_eq (cn lag : Int) (h : 0 ≤ lag) (x : Double)
    (hx : x = (Double.finite cn).sub (Double.ofInt lag) ∨
      x = (Double.finite cn).add (Double.ofInt lag)) :
    ((Double.finite cn).sub (Double.ofInt lag)).le x = true ∧
      x.le ((Double.finite cn).add (Double.ofInt lag)) = true := by
  have hlo : (Double.finite cn).sub (Double.ofInt lag) ≠ Double.nan := by
    unfold Double.ofInt
    rw [Double.round_eq]
    split_ifs <;> simp [Double.sub, Double.neg, Double.add, Double.round_ne_nan]
  have hhi : (Double.finite cn).add (Double.ofInt lag) ≠ Double.nan := by
    unfold Double.ofInt
    rw [Double.round_eq]
    split_ifs <;> simp [Double.add, Double.round_ne_nan]
  rcases hx with rfl | rfl
  · exact ⟨Double.le_self _ hlo, window_bounds_le cn lag h⟩
  · exact ⟨window_bounds_le cn lag h, Double.le_self _ hhi⟩

theorem toRat_le_add_iff (a b l : Int) :
    (Double.finite a).toRat ≤ (Double.finite b).toRat + (l : ℚ) ↔
      a ≤ b + l * ((1 <<< 1074 : Nat) : Int) := by
  have hpos : (0 : ℚ) < ((1 <<< 1074 : Nat) : ℚ) := by
    rw [Nat.shiftLeft_eq]; positivity
  simp only [Double.toRat]
  rw [div_add' _ _ _ (ne_of_gt hpos), div_le_div_iff_of_pos_right hpos]
  exact_mod_cast Iff.rfl

/-! ## The loop of `run` -/

theorem wrapInt32_succ (a : Int) : wrapInt32 (wrapInt32 a + 1) = wrapInt32 (a + 1) := by
  unfold wrapInt32
  omega

theorem wrapInt32_of_range (a : Int) (h0 : -2147483648 ≤ a) (h1 : a < 2147483648) :
    wrapInt32 a = a := by
  unfold wrapInt32
  omega

theorem matchedRows_nil (qt : QtText) (t : SearchThread) (headers : QStringList) :
    t.matchedRows qt headers [] = [] := rfl

theorem matchedRows_cons (qt : QtText) (t : SearchThread) (headers : QStringList)
    (line : QString) (lines : List QString) :
    t.matchedRows qt headers (line :: lines) =
      if t.lineMatches qt headers line then splitComma line :: t.matchedRows qt headers lines
      else t.matchedRows qt headers lines := by
  unfold SearchThread.matchedRows
  by_cases h : t.lineMatches qt headers line = true <;> simp [List.filter_cons, h]

theorem matchedRows_append (qt : QtText) (t : SearchThread) (headers : QStringList)
    (l₁ l₂ : List QString) :
    t.matchedRows qt headers (l₁ ++ l₂) =
      t.matchedRows qt headers l₁ ++ t.matchedRows qt headers l₂ := by
  simp [SearchThread.matchedRows, List.filter_append]

theorem progressTrail_length (t : SearchThread) (n : Nat) :
    ∀ lp : Int, (t.progressTrail lp n).length = n := by
  induction n with
  | zero => intro lp; rfl
  | succ n ih => intro lp; simp [SearchThread.progressTrail, ih]

theorem scanLoop_nil (qt : QtText) (t : SearchThread) (shouldStop : Nat → Bool)
    (headers : QStringList) (poll : Nat) (st : ScanState) :
    t.scanLoop qt shouldStop headers poll st [] = ⟨[Event.dataReady st.searchResult], st⟩ :=
  rfl

theorem scanLoop_cons_stop (qt : QtText) (t : SearchThread) (shouldStop : Nat → Bool)
    (headers : QStringList) (poll : Nat) (st : ScanState) (line : QString)
    (rest : List QString) (h : shouldStop poll = true) :
    t.scanLoop qt shouldStop headers poll st (line :: rest) = ⟨[], st⟩ := by
  simp [SearchThread.scanLoop, h]

theorem scanLoop_cons_skip (qt : QtText) (t : SearchThread) (shouldStop : Nat → Bool)
    (headers : QStringList) (poll : Nat) (st : ScanState) (line : QString)
    (rest : List QString) (h : shouldStop poll = false)
    (hm : t.lineMatches qt headers line = false) :
    t.scanLoop qt shouldStop headers poll st (line :: rest) =
      ⟨Event.progressChanged (t.progress (wrapInt32 (st.linesProcessed + 1))) ::
          (t.scanLoop qt shouldStop headers (poll + 1)
            ⟨wrapInt32 (st.linesProcessed + 1), st.foundCount, st.searchResult⟩ rest).events,
        (t.scanLoop qt shouldStop headers (poll + 1)
            ⟨wrapInt32 (st.linesProcessed + 1), st.foundCount, st.searchResult⟩ rest).state⟩ := by
  have hm' : t.rowMatches qt headers (splitComma line) = false := hm
  simp [SearchThread.scanLoop, h, hm']

theorem scanLoop_cons_match (qt : QtText) (t : SearchThread) (shouldStop : Nat → Bool)
    (headers : QStringList) (poll : Nat) (st : ScanState) (line : QString)
    (rest : List QString) (h : shouldStop poll = false)
    (hm : t.lineMatches qt headers line = true) (hlt : st.foundCount + 1 < 100) :
    t.scanLoop qt shouldStop headers poll st (line :: rest) =
      ⟨Event.progressChanged (t.progress (wrapInt32 (st.linesProcessed + 1))) ::
          (t.scanLoop qt shouldStop headers (poll + 1)
            ⟨wrapInt32 (st.linesProcessed + 1), st.foundCount + 1,
              st.searchResult ++ [splitComma line]⟩ rest).events,
        (t.scanLoop qt shouldStop headers (poll + 1)
            ⟨wrapInt32 (st.linesProcessed + 1), st.foundCount + 1,
              st.searchResult ++ [splitComma line]⟩ rest).state⟩ := by
  have hm' : t.rowMatches qt headers (splitComma line) = true := hm
  have hlt' : ¬ (100 ≤ st.foundCount + 1) := by omega
  simp [SearchThread.scanLoop, h, hm', hlt']

theorem scanLoop_cons_cap (qt : QtText) (t : SearchThread) (shouldStop : Nat → Bool)
    (headers : QStringList) (poll : Nat) (st : ScanState) (line : QString)
    (rest : List QString) (h : shouldStop poll = false)
    (hm : t.lineMatches qt headers line = true) (hge : 100 ≤ st.foundCount + 1) :
    t.scanLoop qt shouldStop headers poll st (line :: rest) =
      ⟨[Event.progressChanged 100, Event.dataReady (st.searchResult ++ [splitComma line])],
        ⟨wrapInt32 (st.linesProcessed + 1), st.foundCount + 1,
          st.searchResult ++ [splitComma line]⟩⟩ := by
  have hm' : t.rowMatches qt headers (splitComma line) = true := hm
  simp [SearchThread.scanLoop, h, hm', hge]

/-- Scanning `pre ++ rest` when no poll during `pre` sees the stop flag and the rows that
match in `pre` do not fill the result up to the cap: the loop emits one formula progress
per line of `pre` and goes on with `rest` from the advanced state. -/
theorem scanLoop_append (qt : QtText) (t : SearchThread) (shouldStop : Nat → Bool)
    (headers : QStringList) :
    ∀ (pre : List QString) (poll : Nat) (st : ScanState) (rest : List QString),
      (∀ j, j < pre.length → shouldStop (poll + j) = false) →
      st.foundCount + ((t.matchedRows qt headers pre).length : Int) < 100 →
      t.scanLoop qt shouldStop headers poll st (pre ++ rest) =
        ⟨t.progressTrail st.linesProcessed pre.length ++
            (t.scanLoop qt shouldStop headers (poll + pre.length)
              (t.stateAfter qt headers st pre) rest).events,
          (t.scanLoop qt shouldStop headers (poll + pre.length)
              (t.stateAfter qt headers st pre) rest).state⟩ := by
  intro pre
  induction pre with
  | nil =>
    intro poll st rest _ _
    simp [SearchThread.stateAfter, SearchThread.progressTrail, countedAfter, matchedRows_nil]
  | cons line pre ih =>
    intro poll st rest hstop hcap
    have h0 : shouldStop poll = false := by simpa using hstop 0 (by simp)
    have hrest : ∀ j, j < pre.length → shouldStop (poll + 1 + j) = false := by
      intro j hj
      have := hstop (j + 1) (by simpa using hj)
      rwa [show poll + 1 + j = poll + (j + 1) by omega]
    rw [matchedRows_cons] at hcap
    have hidx : poll + 1 + pre.length = poll + (line :: pre).length := by
      simp only [List.length_cons]; omega
    by_cases hm : t.lineMatches qt headers line = true
    · rw [if_pos hm] at hcap
      simp only [List.length_cons, Nat.cast_add, Nat.cast_one] at hcap
      have ih' := ih (poll + 1)
        ⟨wrapInt32 (st.linesProcessed + 1), st.foundCount + 1,
          st.searchResult ++ [splitComma line]⟩ rest hrest (by simp only; omega)
      have hst : t.stateAfter qt headers
          ⟨wrapInt32 (st.linesProcessed + 1), st.foundCount + 1,
            st.searchResult ++ [splitComma line]⟩ pre =
          t.stateAfter qt headers st (line :: pre) := by
        simp [SearchThread.stateAfter, countedAfter, matchedRows_cons, hm]
        omega
      rw [hst, hidx] at ih'
      rw [List.cons_append, scanLoop_cons_match qt t shouldStop headers poll st line _ h0 hm
        (by omega), ih']
      simp [SearchThread.progressTrail]
    · have hm0 : t.lineMatches qt headers line = false := by simpa using hm
      rw [if_neg hm] at hcap
      have ih' := ih (poll + 1)
        ⟨wrapInt32 (st.linesProcessed + 1), st.foundCount, st.searchResult⟩ rest hrest hcap
      have hst : t.stateAfter qt headers
          ⟨wrapInt32 (st.linesProcessed + 1), st.foundCount, st.searchResult⟩ pre =
          t.stateAfter qt headers st (line :: pre) := by
        simp [SearchThread.stateAfter, countedAfter, matchedRows_cons, hm]
      rw [hst, hidx] at ih'
      rw [List.cons_append, scanLoop_cons_skip qt t shouldStop headers poll st line _ h0 hm0,
        ih']
      simp [SearchThread.progressTrail]

/-! ## Whole scans -/

theorem dataReadyOf_append (es fs : List Event) :
    dataReadyOf (es ++ fs) = dataReadyOf es ++ dataReadyOf fs := by
  induction es with
  | nil => rfl
  | cons e es ih => cases e <;> simp [dataReadyOf, ih]

theorem errorsOf_append (es fs : List Event) :
    errorsOf (es ++ fs) = errorsOf es ++ errorsOf fs := by
  induction es with
  | nil => rfl
  | cons e es ih => cases e <;> simp [errorsOf, ih]

theorem progressOf_append (es fs : List Event) :
    progressOf (es ++ fs) = progressOf es ++ progressOf fs := by
  induction es with
  | nil => rfl
  | cons e es ih => cases e <;> simp [progressOf, ih]

theorem dataReadyOf_progressTrail (t : SearchThread) (n : Nat) :
    ∀ lp : Int, dataReadyOf (t.progressTrail lp n) = [] := by
  induction n with
  | zero => intro lp; rfl
  | succ n ih => intro lp; simp [SearchThread.progressTrail, dataReadyOf, ih]

theorem errorsOf_progressTrail (t : SearchThread) (n : Nat) :
    ∀ lp : Int, errorsOf (t.progressTrail lp n) = [] := by
  induction n with
  | zero => intro lp; rfl
  | succ n ih => intro lp; simp [SearchThread.progressTrail, errorsOf, ih]

theorem countedAfter_eq (n : Nat) : ∀ lp : Int, countedAfter lp n = wrapInt32 (lp + n) ∨ n = 0 := by
  induction n with
  | zero => intro lp; right; rfl
  | succ n ih =>
    intro lp
    left
    rcases ih (wrapInt32 (lp + 1)) with h | h
    · rw [countedAfter, h]
      unfold wrapInt32
      push_cast
      omega
    · subst h
      simp [countedAfter]

theorem countedAfter_zero (n : Nat) : countedAfter 0 n = wrapInt32 n := by
  rcases countedAfter_eq n 0 with h | h
  · simpa using h
  · subst h
    rfl

theorem countedAfter_succ (n : Nat) (lp : Int) :
    wrapInt32 (countedAfter lp n + 1) = countedAfter lp (n + 1) := by
  induction n generalizing lp with
  | zero => rfl
  | succ n ih => rw [countedAfter, ih]; rfl

/-- The formula progress signals of the first `n` lines of a scan, by line number. -/
theorem progressTrail_zero_eq (t : SearchThread) (n : Nat) :
    t.progressTrail 0 n =
      (List.range n).map
        (fun (i : Nat) => Event.progressChanged (t.progress (wrapInt32 ((i : Int) + 1)))) := by
  have key : ∀ (n k : Nat) (lp : Int), lp = wrapInt32 k →
      t.progressTrail lp n =
        (List.range n).map
          (fun (i : Nat) =>
            Event.progressChanged (t.progress (wrapInt32 (((k + i : Nat) : Int) + 1)))) := by
    intro n
    induction n with
    | zero => intro k lp _; rfl
    | succ n ih =>
      intro k lp hlp
      have h1 : wrapInt32 (lp + 1) = wrapInt32 (((k + 1 : Nat) : Int)) := by
        rw [hlp, wrapInt32_succ]; simp
      have h2 : wrapInt32 (lp + 1) = wrapInt32 (((k + 0 : Nat) : Int) + 1) := by
        rw [hlp, wrapInt32_succ]; simp
      rw [SearchThread.progressTrail, List.range_succ_eq_map, List.map_cons, List.map_map,
        ih (k + 1) (wrapInt32 (lp + 1)) h1, h2]
      refine congrArg₂ List.cons rfl ?_
      apply List.map_congr_left
      intro i _
      have h3 : ((k + 1 + i : Nat) : Int) + 1 = ((k + (i + 1) : Nat) : Int) + 1 := by
        push_cast; omega
      simp only [Function.comp, Nat.succ_eq_add_one]
      rw [h3]
  have := key n 0 0 (by unfold wrapInt32; omega)
  simpa using this

/-- An uncancelled scan whose matches stay below the cap: one formula progress per line,
then `dataReady` with the header and every matching row. -/
theorem runLines_below_cap (qt : QtText) (t : SearchThread) (shouldStop : Nat → Bool)
    (headerLine : QString) (lines : List QString)
    (hstop : ∀ j, j < lines.length → shouldStop j = false)
    (hcap : (t.matchedRows qt (splitComma headerLine) lines).length < 100) :
    t.runLines qt shouldStop (headerLine :: lines) =
      ⟨t.progressTrail 0 lines.length ++
          [Event.dataReady
            (splitComma headerLine :: t.matchedRows qt (splitComma headerLine) lines)],
        ⟨countedAfter 0 lines.length,
          ((t.matchedRows qt (splitComma headerLine) lines).length : Int),
          splitComma headerLine :: t.matchedRows qt (splitComma headerLine) lines⟩⟩ := by
  have h := scanLoop_append qt t shouldStop (splitComma headerLine) lines 0
    ⟨0, 0, [splitComma headerLine]⟩ []
    (by intro j hj; simpa using hstop j hj) (by simp only; omega)
  rw [List.append_nil] at h
  rw [SearchThread.runLines, h, scanLoop_nil]
  simp [SearchThread.stateAfter]

/-- An uncancelled scan that reaches the cap at the line `l`: one formula progress per
earlier line, then `progressChanged(100)` and `dataReady`; the lines after `l` play no
part. -/
theorem runLines_at_cap (qt : QtText) (t : SearchThread) (shouldStop : Nat → Bool)
    (headerLine : QString) (pre : List QString) (l : QString) (post : List QString)
    (hstop : ∀ j, j ≤ pre.length → shouldStop j = false)
    (hpre : (t.matchedRows qt (splitComma headerLine) pre).length = 99)
    (hl : t.lineMatches qt (splitComma headerLine) l = true) :
    t.runLines qt shouldStop (headerLine :: (pre ++ l :: post)) =
      ⟨t.progressTrail 0 pre.length ++
          [Event.progressChanged 100,
            Event.dataReady (splitComma headerLine ::
              (t.matchedRows qt (splitComma headerLine) pre ++ [splitComma l]))],
        ⟨countedAfter 0 (pre.length + 1), 100,
          splitComma headerLine ::
            (t.matchedRows qt (splitComma headerLine) pre ++ [splitComma l])⟩⟩ := by
  have h := scanLoop_append qt t shouldStop (splitComma headerLine) pre 0
    ⟨0, 0, [splitComma headerLine]⟩ (l :: post)
    (by intro j hj; simpa using hstop j (by omega)) (by simp only; omega)
  have h0 : shouldStop (0 + pre.length) = false := by simpa using hstop pre.length (le_refl _)
  rw [SearchThread.runLines, h, scanLoop_cons_cap qt t shouldStop _ _ _ l post h0 hl
    (by simp only [SearchThread.stateAfter]; omega)]
  simp [SearchThread.stateAfter, hpre, countedAfter_succ]

/-- A scan cancelled at poll `k`, the first poll that sees the flag, before the end of the
file and below the cap: the formula progress of the first `k` lines and nothing else. -/
theorem runLines_stopped (qt : QtText) (t : SearchThread) (shouldStop : Nat → Bool)
    (headerLine : QString) (lines : List QString) (k : Nat)
    (hfirst : ∀ j, j < k → shouldStop j = false) (hk : shouldStop k = true)
    (hlen : k < lines.length)
    (hcap : (t.matchedRows qt (splitComma headerLine) (lines.take k)).length < 100) :
    t.runLines qt shouldStop (headerLine :: lines) =
      ⟨t.progressTrail 0 k,
        ⟨countedAfter 0 k,
          ((t.matchedRows qt (splitComma headerLine) (lines.take k)).length : Int),
          splitComma headerLine :: t.matchedRows qt (splitComma headerLine) (lines.take k)⟩⟩ := by
  have hlenk : (lines.take k).length = k := by simp; omega
  have h := scanLoop_append qt t shouldStop (splitComma headerLine) (lines.take k) 0
    ⟨0, 0, [splitComma headerLine]⟩ (lines.drop k)
    (by intro j hj; rw [hlenk] at hj; simpa using hfirst j hj) (by simp only; omega)
  rw [List.take_append_drop, hlenk] at h
  obtain ⟨line, rest, hdrop⟩ : ∃ line rest, lines.drop k = line :: rest := by
    cases hd : lines.drop k with
    | nil =>
      have : (lines.drop k).length = 0 := by rw [hd]; rfl
      simp at this; omega
    | cons line rest => exact ⟨line, rest, rfl⟩
  rw [SearchThread.runLines, h, hdrop,
    scanLoop_cons_stop qt t shouldStop _ _ _ line rest (by simpa using hk)]
  simp [SearchThread.stateAfter, hlenk]

/-- A list with more than `n` elements that satisfy `p` splits at the element that is the
`n + 1`-st to satisfy it. -/
theorem exists_split_at_count {α : Type} (p : α → Bool) :
    ∀ (l : List α) (n : Nat), n < (l.filter p).length →
      ∃ pre x post, l = pre ++ x :: post ∧ (pre.filter p).length = n ∧ p x = true := by
  intro l
  induction l with
  | nil => intro n h; simp at h
  | cons a l ih =>
    intro n h
    by_cases ha : p a = true
    · cases n with
      | zero => exact ⟨[], a, l, rfl, rfl, ha⟩
      | succ n =>
        rw [List.filter_cons_of_pos ha, List.length_cons] at h
        obtain ⟨pre, x, post, hl, hc, hx⟩ := ih n (by omega)
        refine ⟨a :: pre, x, post, by rw [hl]; rfl, ?_, hx⟩
        rw [List.filter_cons_of_pos ha, List.length_cons, hc]
    · rw [List.filter_cons_of_neg ha] at h
      obtain ⟨pre, x, post, hl, hc, hx⟩ := ih n h
      refine ⟨a :: pre, x, post, by rw [hl]; rfl, ?_, hx⟩
      rw [List.filter_cons_of_neg ha, hc]

theorem matchedRows_length (qt : QtText) (t : SearchThread) (headers : QStringList)
    (lines : List QString) :
    (t.matchedRows qt headers lines).length =
      (lines.filter (t.lineMatches qt headers)).length := by
  simp [SearchThread.matchedRows]

/-- The first hundred matching rows of a file whose hundredth match is the line `l`. -/
theorem matchedRows_take_at_cap (qt : QtText) (t : SearchThread) (headers : QStringList)
    (pre : List QString) (l : QString) (post : List QString)
    (hpre : (t.matchedRows qt headers pre).length = 99)
    (hl : t.lineMatches qt headers l = true) :
    (t.matchedRows qt headers (pre ++ l :: post)).take 100 =
      t.matchedRows qt headers pre ++ [splitComma l] := by
  rw [matchedRows_append, matchedRows_cons, if_pos hl, List.take_append_eq_append_take, hpre,
    List.take_of_length_le (by omega)]
  simp

/-- The events of every uncancelled scan: progress signals, then one `dataReady` with the
header and the first hundred matching rows. -/
theorem runLines_uncancelled (qt : QtText) (t : SearchThread) (headerLine : QString)
    (lines : List QString) :
    ∃ ps : List Int,
      (t.runLines qt neverStop (headerLine :: lines)).events =
        ps.map Event.progressChanged ++
          [Event.dataReady (splitComma headerLine ::
            (t.matchedRows qt (splitComma headerLine) lines).take 100)] ∧
      (t.runLines qt neverStop (headerLine :: lines)).state.searchResult =
        splitComma headerLine :: (t.matchedRows qt (splitComma headerLine) lines).take 100 := by
  by_cases hcap : (t.matchedRows qt (splitComma headerLine) lines).length < 100
  · refine ⟨(List.range lines.length).map
      (fun (i : Nat) => t.progress (wrapInt32 ((i : Int) + 1))), ?_⟩
    rw [runLines_below_cap qt t neverStop headerLine lines (fun _ _ => rfl) hcap,
      List.take_of_length_le (by omega), progressTrail_zero_eq]
    simp [List.map_map, Function.comp]
  · rw [matchedRows_length] at hcap
    obtain ⟨pre, l, post, hl, hc, hx⟩ :=
      exists_split_at_count (t.lineMatches qt (splitComma headerLine)) lines 99 (by omega)
    rw [← matchedRows_length] at hc
    refine ⟨(List.range pre.length).map
      (fun (i : Nat) => t.progress (wrapInt32 ((i : Int) + 1)))
      ++ [100], ?_⟩
    rw [hl, runLines_at_cap qt t neverStop headerLine pre l post (fun _ _ => rfl) hc hx,
      matchedRows_take_at_cap qt t _ pre l post hc hx, progressTrail_zero_eq]
    simp [List.map_map, Function.comp]

theorem inWindow_iff (t : SearchThread) (x y z : Double) :
    t.inWindow x y z = true ↔ t.InComputedWindow x y z := by
  simp [SearchThread.inWindow, SearchThread.InComputedWindow, Double.ge, and_assoc]

theorem lineMatches_iff (qt : QtText) (t : SearchThread) (headers : QStringList)
    (line : QString) :
    t.lineMatches qt headers line = true ↔ t.Qualifies qt headers line := by
  unfold SearchThread.lineMatches SearchThread.rowMatches SearchThread.Qualifies
  by_cases hlen : (splitComma line).length = headers.length
  · rw [if_pos hlen]
    cases hp : t.parseCoordinatesFromRow qt (splitComma line) with
    | none => simp [hlen]
    | some v =>
      obtain ⟨x, y, z⟩ := v
      simp only [hlen, inWindow_iff, true_and, Option.some.injEq, Prod.mk.injEq]
      constructor
      · intro hw
        exact ⟨x, y, z, ⟨rfl, rfl, rfl⟩, hw⟩
      · rintro ⟨x', y', z', ⟨rfl, rfl, rfl⟩, hw⟩
        exact hw
  · simp [hlen]

theorem lineMatches_of_parse (qt : QtText) (t : SearchThread) (headers : QStringList)
    (line : QString) (x y z : Double)
    (hwf : (splitComma line).length = headers.length)
    (hparse : t.parseCoordinatesFromRow qt (splitComma line) = some (x, y, z)) :
    t.lineMatches qt headers line = true ↔ t.InComputedWindow x y z := by
  rw [lineMatches_iff]
  constructor
  · rintro ⟨_, x', y', z', hp, hw⟩
    rw [hparse] at hp
    simp only [Option.some.injEq, Prod.mk.injEq] at hp
    obtain ⟨rfl, rfl, rfl⟩ := hp
    exact hw
  · intro hw
    exact ⟨hwf, x, y, z, hparse, hw⟩

/-- The loop never emits `errorOccurred`. -/
theorem scanLoop_errorsOf (qt : QtText) (t : SearchThread) (shouldStop : Nat → Bool)
    (headers : QStringList) :
    ∀ (lines : List QString) (poll : Nat) (st : ScanState),
      errorsOf (t.scanLoop qt shouldStop headers poll st lines).events = [] := by
  intro lines
  induction lines with
  | nil => intro poll st; rfl
  | cons line rest ih =>
    intro poll st
    by_cases hs : shouldStop poll = true
    · rw [scanLoop_cons_stop qt t shouldStop headers poll st line rest hs]; rfl
    · have hs0 : shouldStop poll = false := by simpa using hs
      by_cases hm : t.lineMatches qt headers line = true
      · by_cases hlt : st.foundCount + 1 < 100
        · rw [scanLoop_cons_match qt t shouldStop headers poll st line rest hs0 hm hlt]
          simp [errorsOf, ih]
        · rw [scanLoop_cons_cap qt t shouldStop headers poll st line rest hs0 hm (by omega)]
          rfl
      · have hm0 : t.lineMatches qt headers line = false := by simpa using hm
        rw [scanLoop_cons_skip qt t shouldStop headers poll st line rest hs0 hm0]
        simp [errorsOf, ih]

/-- Every result the loop delivers is the header followed by at most a hundred rows. -/
theorem scanLoop_dataReady_bound (qt : QtText) (t : SearchThread) (shouldStop : Nat → Bool)
    (headers : QStringList) (hdr : QStringList) :
    ∀ (lines : List QString) (poll : Nat) (st : ScanState) (d : List QStringList),
      st.searchResult = hdr :: d → st.foundCount = (d.length : Int) → d.length < 100 →
      ∀ rows, Event.dataReady rows ∈ (t.scanLoop qt shouldStop headers poll st lines).events →
        ∃ data, rows = hdr :: data ∧ data.length ≤ 100 := by
  intro lines
  induction lines with
  | nil =>
    intro poll st d hsr _ hd rows hmem
    rw [scanLoop_nil] at hmem
    simp only [List.mem_singleton, Event.dataReady.injEq] at hmem
    exact ⟨d, by rw [hmem, hsr], by omega⟩
  | cons line rest ih =>
    intro poll st d hsr hfc hd rows hmem
    by_cases hs : shouldStop poll = true
    · rw [scanLoop_cons_stop qt t shouldStop headers poll st line rest hs] at hmem
      simp at hmem
    · have hs0 : shouldStop poll = false := by simpa using hs
      by_cases hm : t.lineMatches qt headers line = true
      · by_cases hlt : st.foundCount + 1 < 100
        · rw [scanLoop_cons_match qt t shouldStop headers poll st line rest hs0 hm hlt] at hmem
          simp only [List.mem_cons, reduceCtorEq, false_or] at hmem
          exact ih (poll + 1) _ (d ++ [splitComma line]) (by simp [hsr])
            (by simp [hfc]) (by simp; omega) rows hmem
        · rw [scanLoop_cons_cap qt t shouldStop headers poll st line rest hs0 hm
            (by omega)] at hmem
          simp only [List.mem_cons, reduceCtorEq, Event.dataReady.injEq, false_or,
            List.mem_singleton, List.not_mem_nil, or_false] at hmem
          exact ⟨d ++ [splitComma line], by rw [hmem, hsr]; rfl, by simp; omega⟩
      · have hm0 : t.lineMatches qt headers line = false := by simpa using hm
        rw [scanLoop_cons_skip qt t shouldStop headers poll st line rest hs0 hm0] at hmem
        simp only [List.mem_cons, reduceCtorEq, false_or] at hmem
        exact ih (poll + 1) ⟨wrapInt32 (st.linesProcessed + 1), st.foundCount, st.searchResult⟩
          d hsr hfc hd rows hmem

theorem dataReadyOf_map_progress (ps : List Int) :
    dataReadyOf (ps.map Event.progressChanged) = [] := by
  induction ps with
  | nil => rfl
  | cons p ps ih => simpa [dataReadyOf] using ih

theorem errorsOf_map_progress (ps : List Int) :
    errorsOf (ps.map Event.progressChanged) = [] := by
  induction ps with
  | nil => rfl
  | cons p ps ih => simpa [errorsOf] using ih

/-- A malformed line does not pass the condition of `run` for pushing a row. -/
theorem lineMatches_of_malformed (qt : QtText) (t : SearchThread) (headers : QStringList)
    (line : QString) (h : t.Malformed qt headers line) :
    t.lineMatches qt headers line = false := by
  unfold SearchThread.lineMatches SearchThread.rowMatches
  rcases h with hlen | ⟨hrel, hparts⟩ | ⟨hrel, hxyz⟩
  · rw [if_neg hlen]
  · have hnone : t.parseCoordinatesFromRow qt (splitComma line) = none := by
      unfold SearchThread.parseCoordinatesFromRow
      rw [if_pos hrel]
      by_cases hge : t.relativeLocationColumn_ ≥ ((splitComma line).length : Int)
      · rw [if_pos hge]
      · rw [if_neg hge]
        rcases hparts with hne | ⟨p, hp, hpnone⟩
        · simp only [hne, ne_eq, not_false_eq_true, if_true]
        · by_cases h3 :
              (qt.splitSpaces (qt.trimmed
                (fieldAt (splitComma line) t.relativeLocationColumn_))).length = 3
          · simp only [h3, ne_eq, not_true_eq_false, if_false]
            match hparts' : qt.splitSpaces (qt.trimmed
                (fieldAt (splitComma line) t.relativeLocationColumn_)), h3 with
            | [a, b, c], _ =>
              rw [hparts'] at hp
              simp only [List.getD_cons_zero, List.getD_cons_succ]
              simp only [List.mem_cons, List.mem_singleton, List.not_mem_nil, or_false] at hp
              rcases hp with rfl | rfl | rfl
              · rw [hpnone]
              · rw [hpnone]; cases qt.toDouble a <;> rfl
              · rw [hpnone]; cases qt.toDouble a <;> cases qt.toDouble b <;> rfl
          · simp only [h3, ne_eq, not_false_eq_true, if_true]
    rw [hnone]
    simp
  · have hnone : t.parseCoordinatesFromRow qt (splitComma line) = none := by
      unfold SearchThread.parseCoordinatesFromRow
      rw [if_neg (by omega)]
      by_cases h1 : t.xColumn_ < 0 ∨ t.yColumn_ < 0 ∨ t.zColumn_ < 0
      · rw [if_pos h1]
      · rw [if_neg h1]
        by_cases h2 : t.xColumn_ ≥ ((splitComma line).length : Int) ∨
            t.yColumn_ ≥ ((splitComma line).length : Int) ∨
            t.zColumn_ ≥ ((splitComma line).length : Int)
        · rw [if_pos h2]
        · rw [if_neg h2]
          rcases hxyz with hx | hy | hz
          · rw [hx]
          · rw [hy]; cases qt.toDouble (qt.trimmed (fieldAt (splitComma line) t.xColumn_)) <;> rfl
          · rw [hz]
            cases qt.toDouble (qt.trimmed (fieldAt (splitComma line) t.xColumn_)) <;>
              cases qt.toDouble (qt.trimmed (fieldAt (splitComma line) t.yColumn_)) <;> rfl
    rw [hnone]
    simp

/-! ## Resolution of the coordinate columns -/

theorem lastIndexFrom_spec (p : QString → Bool) :
    ∀ (hs : List QString) (i : Nat) (cur : Int),
      (lastIndexFrom p i hs cur = cur ∧ ∀ h ∈ hs, p h = false) ∨
      (∃ k : Nat, lastIndexFrom p i hs cur = ((i + k : Nat) : Int) ∧
        (∃ h, hs[k]? = some h ∧ p h = true) ∧
        ∀ (j : Nat) (h' : QString), k < j → hs[j]? = some h' → p h' = false) := by
  intro hs
  induction hs with
  | nil => intro i cur; left; exact ⟨rfl, by simp⟩
  | cons h hs ih =>
    intro i cur
    rw [lastIndexFrom]
    rcases ih (i + 1) (if p h then (i : Int) else cur) with ⟨heq, hnone⟩ | ⟨k, heq, hk, hlast⟩
    · by_cases hp : p h = true
      · right
        refine ⟨0, ?_, ⟨h, List.getElem?_cons_zero, hp⟩, ?_⟩
        · rw [heq, if_pos hp]; rfl
        · intro j h' hj hget
          cases j with
          | zero => omega
          | succ j =>
            rw [List.getElem?_cons_succ] at hget
            exact hnone h' (List.mem_iff_getElem?.2 ⟨j, hget⟩)
      · left
        have hp0 : p h = false := by simpa using hp
        refine ⟨by rw [heq, if_neg hp], ?_⟩
        intro h' hmem
        rcases List.mem_cons.1 hmem with rfl | hmem
        · exact hp0
        · exact hnone h' hmem
    · right
      refine ⟨k + 1, ?_, ?_, ?_⟩
      · rw [heq]; congr 1; omega
      · simpa [List.getElem?_cons_succ] using hk
      · intro j h' hj hget
        cases j with
        | zero => omega
        | succ j =>
          rw [List.getElem?_cons_succ] at hget
          exact hlast j h' (by omega) hget

theorem lastIndexFrom_isLastMatch (p : QString → Bool) (headers : QStringList) :
    IsLastMatch (fun h => p h = true) headers (lastIndexFrom p 0 headers (-1)) := by
  rcases lastIndexFrom_spec p headers 0 (-1) with ⟨heq, hnone⟩ | ⟨k, heq, hk, hlast⟩
  · left
    exact ⟨heq, fun h hmem => by simp [hnone h hmem]⟩
  · right
    refine ⟨k, by simpa using heq, hk, ?_⟩
    intro j h' hj hget
    simp [hlast j h' hj hget]

theorem isCombinedName_iff (n : QString) :
    isCombinedName n = true ↔
      (n = "relativelocation".toList ∨ n = "relative_location".toList) := by
  simp [isCombinedName]

theorem not_combined_of_axis (n : QString) (h : n = ['x'] ∨ n = ['y'] ∨ n = ['z']) :
    isCombinedName n = false := by
  rcases h with rfl | rfl | rfl <;> decide

/-- Each column member the loop of `resolveCoordinateColumns` leaves is the last index
whose header name is the one of its role. -/
theorem resolveLoop_eq (qt : QtText) :
    ∀ (hs : List QString) (i : Nat) (c : Columns),
      resolveLoop qt i hs c =
        ⟨lastIndexFrom (fun h => isCombinedName (headerName qt h)) i hs c.relativeLocationColumn,
          lastIndexFrom (fun h => decide (headerName qt h = ['x'])) i hs c.xColumn,
          lastIndexFrom (fun h => decide (headerName qt h = ['y'])) i hs c.yColumn,
          lastIndexFrom (fun h => decide (headerName qt h = ['z'])) i hs c.zColumn⟩ := by
  intro hs
  induction hs with
  | nil => intro i c; rfl
  | cons h hs ih =>
    intro i c
    rw [resolveLoop]
    simp only [lastIndexFrom]
    by_cases hc : isCombinedName (headerName qt h) = true
    · have hx : headerName qt h ≠ ['x'] := by
        intro hx; rw [not_combined_of_axis _ (Or.inl hx)] at hc; cases hc
      have hy : headerName qt h ≠ ['y'] := by
        intro hy; rw [not_combined_of_axis _ (Or.inr (Or.inl hy))] at hc; cases hc
      have hz : headerName qt h ≠ ['z'] := by
        intro hz; rw [not_combined_of_axis _ (Or.inr (Or.inr hz))] at hc; cases hc
      simp only [hc, hx, hy, hz, if_true, decide_False, Bool.false_eq_true, if_false]
      rw [ih]
    · have hc0 : isCombinedName (headerName qt h) = false := by simpa using hc
      by_cases hx : headerName qt h = ['x']
      · simp [hx, ih, show isCombinedName ['x'] = false by decide]
      · by_cases hy : headerName qt h = ['y']
        · simp [hy, ih, show isCombinedName ['y'] = false by decide]
        · by_cases hz : headerName qt h = ['z']
          · simp [hz, ih, show isCombinedName ['z'] = false by decide]
          · simp [hc0, hx, hy, hz, ih]

theorem IsLastMatch.congr {p q : QString → Prop} (hpq : ∀ h, p h ↔ q h)
    {headers : QStringList} {idx : Int} (h : IsLastMatch p headers idx) :
    IsLastMatch q headers idx := by
  rcases h with ⟨heq, hnone⟩ | ⟨i, heq, ⟨x, hx, hpx⟩, hlast⟩
  · exact Or.inl ⟨heq, fun x hx hq => hnone x hx ((hpq x).2 hq)⟩
  · exact Or.inr ⟨i, heq, ⟨x, hx, (hpq x).1 hpx⟩,
      fun j h' hj hget hq => hlast j h' hj hget ((hpq h').2 hq)⟩

theorem resolveCoordinateColumns_snd (qt : QtText) (headers : QStringList) :
    (resolveCoordinateColumns qt headers).2 =
      ⟨lastIndexFrom (fun h => isCombinedName (headerName qt h)) 0 headers (-1),
        lastIndexFrom (fun h => decide (headerName qt h = ['x'])) 0 headers (-1),
        lastIndexFrom (fun h => decide (headerName qt h = ['y'])) 0 headers (-1),
        lastIndexFrom (fun h => decide (headerName qt h = ['z'])) 0 headers (-1)⟩ := by
  unfold resolveCoordinateColumns
  simp only [resolveLoop_eq]
  split_ifs <;> rfl

theorem resolveCoordinateColumns_fst (qt : QtText) (headers : QStringList) :
    (resolveCoordinateColumns qt headers).1 = true ↔
      (0 ≤ (resolveCoordinateColumns qt headers).2.relativeLocationColumn ∨
        (0 ≤ (resolveCoordinateColumns qt headers).2.xColumn ∧
          0 ≤ (resolveCoordinateColumns qt headers).2.yColumn ∧
          0 ≤ (resolveCoordinateColumns qt headers).2.zColumn)) := by
  unfold resolveCoordinateColumns
  simp only [ge_iff_le]
  split_ifs with h1 h2
  · simp [h1]
  · simp [h2]
  · simp [h1, h2]

theorem textLinesAux_eq_nil (cs : List Char) :
    ∀ cur : QString, textLinesAux cur cs = [] ↔ cur = [] ∧ cs = [] := by
  induction cs with
  | nil =>
    intro cur
    by_cases h : cur = [] <;> simp [textLinesAux, h]
  | cons c cs ih =>
    intro cur
    rw [textLinesAux]
    by_cases hc : c = '\n'
    · simp [hc]
    · simp [hc, ih]

/-- The stream has no first line exactly when the file holds no character other than
carriage returns. -/
theorem textLines_eq_nil (content : List Char) :
    textLines content = [] ↔ ∀ c ∈ content, c = '\r' := by
  simp [textLines, textLinesAux_eq_nil, List.filter_eq_nil_iff]

theorem progressOf_map_progress (ps : List Int) :
    progressOf (ps.map Event.progressChanged) = ps := by
  induction ps with
  | nil => rfl
  | cons p ps ih => simp [progressOf, ih]

theorem progressOf_progressTrail_zero (t : SearchThread) (n : Nat) :
    progressOf (t.progressTrail 0 n) =
      (List.range n).map (fun (i : Nat) => t.progress (wrapInt32 ((i : Int) + 1))) := by
  rw [progressTrail_zero_eq]
  have : (List.range n).map
      (fun (i : Nat) => Event.progressChanged (t.progress (wrapInt32 ((i : Int) + 1)))) =
      ((List.range n).map (fun (i : Nat) => t.progress (wrapInt32 ((i : Int) + 1)))).map
        Event.progressChanged := by
    rw [List.map_map]; rfl
  rw [this, progressOf_map_progress]

theorem getElem?_map_range (f : Nat → Int) (n i : Nat) (h : i < n) :
    ((List.range n).map f)[i]? = some (f i) := by
  rw [List.getElem?_map, List.getElem?_range h, Option.map_some']

/-- The progress values of an uncancelled scan over `n` copies of a line that does not
match: the formula value of each line number from 1 to `n`. -/
theorem progressOf_runLines_replicate (qt : QtText) (t : SearchThread) (headerLine : QString)
    (line : QString) (hm : t.lineMatches qt (splitComma headerLine) line = false) (n : Nat) :
    progressOf (t.runLines qt neverStop (headerLine :: List.replicate n line)).events =
      (List.range n).map (fun (i : Nat) => t.progress (wrapInt32 ((i : Int) + 1))) := by
  have hrows : t.matchedRows qt (splitComma headerLine) (List.replicate n line) = [] := by
    simp [SearchThread.matchedRows, List.filter_replicate, hm]
  have hrun := runLines_below_cap qt t neverStop headerLine (List.replicate n line)
    (fun _ _ => rfl) (by rw [hrows]; decide)
  rw [hrun, progressOf_append, progressOf_progressTrail_zero, List.length_replicate]
  simp [progressOf]

theorem progressOf_progressTrail_succ (t : SearchThread) (lp : Int) (n : Nat) :
    progressOf (t.progressTrail lp (n + 1)) =
      t.progress (wrapInt32 (lp + 1)) :: progressOf (t.progressTrail (wrapInt32 (lp + 1)) n) :=
  rfl

/-- The progress values of any scan, cancelled or not: the formula values of the first `n`
lines, then possibly the literal 100 of the cap. -/
theorem scanLoop_progress_shape (qt : QtText) (t : SearchThread) (shouldStop : Nat → Bool)
    (headers : QStringList) :
    ∀ (lines : List QString) (poll : Nat) (st : ScanState),
      ∃ n, n ≤ lines.length ∧
        (progressOf (t.scanLoop qt shouldStop headers poll st lines).events =
            progressOf (t.progressTrail st.linesProcessed n) ∨
          progressOf (t.scanLoop qt shouldStop headers poll st lines).events =
            progressOf (t.progressTrail st.linesProcessed n) ++ [100]) := by
  intro lines
  induction lines with
  | nil => intro poll st; exact ⟨0, le_refl _, Or.inl rfl⟩
  | cons line rest ih =>
    intro poll st
    by_cases hs : shouldStop poll = true
    · rw [scanLoop_cons_stop qt t shouldStop headers poll st line rest hs]
      exact ⟨0, Nat.zero_le _, Or.inl rfl⟩
    · have hs0 : shouldStop poll = false := by simpa using hs
      by_cases hm : t.lineMatches qt headers line = true
      · by_cases hlt : st.foundCount + 1 < 100
        · rw [scanLoop_cons_match qt t shouldStop headers poll st line rest hs0 hm hlt]
          obtain ⟨n, hn, h⟩ := ih (poll + 1)
            ⟨wrapInt32 (st.linesProcessed + 1), st.foundCount + 1,
              st.searchResult ++ [splitComma line]⟩
          refine ⟨n + 1, by simpa using hn, ?_⟩
          rw [progressOf_progressTrail_succ]
          rcases h with h | h
          · exact Or.inl (by simp only [progressOf]; rw [h])
          · exact Or.inr (by simp only [progressOf]; rw [h]; rfl)
        · rw [scanLoop_cons_cap qt t shouldStop headers poll st line rest hs0 hm (by omega)]
          exact ⟨0, Nat.zero_le _, Or.inr rfl⟩
      · have hm0 : t.lineMatches qt headers line = false := by simpa using hm
        rw [scanLoop_cons_skip qt t shouldStop headers poll st line rest hs0 hm0]
        obtain ⟨n, hn, h⟩ := ih (poll + 1)
          ⟨wrapInt32 (st.linesProcessed + 1), st.foundCount, st.searchResult⟩
        refine ⟨n + 1, by simpa using hn, ?_⟩
        rw [progressOf_progressTrail_succ]
        rcases h with h | h
        · exact Or.inl (by simp only [progressOf]; rw [h])
        · exact Or.inr (by simp only [progressOf]; rw [h]; rfl)

/-- The progress formula for a line number whose hundredfold is still an `int`. -/
theorem progress_of_small (t : SearchThread) (i : Nat) (hi : i < 21474836) :
    t.progress (wrapInt32 ((i : Int) + 1)) = min 100 ((((i : Int) + 1) * 100) / t.maxLines) := by
  have hM : (0 : Int) ≤ t.maxLines := by
    unfold SearchThread.maxLines
    exact le_trans (by decide) (le_max_left 1 t.totalLinesCount_)
  rw [SearchThread.progress, wrapInt32_of_range ((i : Int) + 1) (by omega) (by omega),
    wrapInt32_of_range (((i : Int) + 1) * 100) (by omega) (by omega),
    Int.tdiv_eq_ediv (by omega) hM]

/-- Below the overflow of `linesProcessed * 100`, that is for a file of at most 21474836
data lines, the progress values of a scan, cancelled or not, never decrease and lie
between 0 and 100. -/
theorem progress_monotone_below_overflow (qt : QtText) (t : SearchThread)
    (shouldStop : Nat → Bool) (headerLine : QString) (lines : List QString)
    (hlen : lines.length ≤ 21474836) :
    (progressOf (t.runLines qt shouldStop (headerLine :: lines)).events).Pairwise (· ≤ ·) ∧
    ∀ v ∈ progressOf (t.runLines qt shouldStop (headerLine :: lines)).events,
      0 ≤ v ∧ v ≤ 100 := by
  have hM : (0 : Int) < t.maxLines := by
    unfold SearchThread.maxLines
    exact lt_of_lt_of_le (by decide) (le_max_left 1 t.totalLinesCount_)
  obtain ⟨n, hn, hshape⟩ := scanLoop_progress_shape qt t shouldStop (splitComma headerLine)
    lines 0 ⟨0, 0, [splitComma headerLine]⟩
  have hn' : n ≤ 21474836 := le_trans hn hlen
  have hrange : ∀ v ∈ (List.range n).map
      (fun (i : Nat) => t.progress (wrapInt32 ((i : Int) + 1))), 0 ≤ v ∧ v ≤ 100 := by
    intro v hv
    obtain ⟨i, hi, rfl⟩ := List.mem_map.1 hv
    have hi' : i < n := List.mem_range.1 hi
    rw [progress_of_small t i (by omega)]
    have hq : 0 ≤ (((i : Int) + 1) * 100) / t.maxLines :=
      Int.ediv_nonneg (by positivity) (le_of_lt hM)
    exact ⟨le_min (by decide) hq, min_le_left _ _⟩
  have hsorted : ((List.range n).map
      (fun (i : Nat) => t.progress (wrapInt32 ((i : Int) + 1)))).Pairwise (· ≤ ·) := by
    rw [List.pairwise_map]
    refine List.Pairwise.imp_of_mem ?_ (List.pairwise_lt_range n)
    intro a b ha hb hab
    have ha' : a < n := List.mem_range.1 ha
    have hb' : b < n := List.mem_range.1 hb
    rw [progress_of_small t a (by omega), progress_of_small t b (by omega)]
    exact min_le_min (le_refl _) (Int.ediv_le_ediv hM (by omega))
  rw [SearchThread.runLines]
  rcases hshape with h | h
  · rw [h, progressOf_progressTrail_zero]
    exact ⟨hsorted, hrange⟩
  · rw [h, progressOf_progressTrail_zero]
    constructor
    · rw [List.pairwise_append]
      refine ⟨hsorted, List.pairwise_singleton _ _, ?_⟩
      intro a ha b hb
      rw [List.mem_singleton.1 hb]
      exact (hrange a ha).2
    · intro v hv
      rcases List.mem_append.1 hv with hv | hv
      · exact hrange v hv
      · rw [List.mem_singleton.1 hv]
        decide

theorem matchedRows_replicate (qt : QtText) (t : SearchThread) (headers : QStringList)
    (line : QString) (hm : t.lineMatches qt headers line = true) (n : Nat) :
    t.matchedRows qt headers (List.replicate n line) = List.replicate n (splitComma line) := by
  rw [SearchThread.matchedRows, List.filter_replicate_of_pos hm, List.map_replicate]

/-- An uncancelled scan of at least a hundred copies of a matching line: the formula
progress of the first 99 lines, then `progressChanged(100)` and `dataReady` with the header
and a hundred rows. -/
theorem runLines_replicate_at_cap (qt : QtText) (t : SearchThread) (headerLine : QString)
    (line : QString) (hm : t.lineMatches qt (splitComma headerLine) line = true) (k : Nat) :
    (t.runLines qt neverStop (headerLine :: List.replicate (100 + k) line)).events =
      t.progressTrail 0 99 ++
        [Event.progressChanged 100,
          Event.dataReady (splitComma headerLine :: List.replicate 100 (splitComma line))] := by
  have hsplit : ∀ n : Nat, List.replicate (n + 1 + k) line =
      List.replicate n line ++ line :: List.replicate k line := by
    intro n
    rw [Nat.add_assoc, List.replicate_add, Nat.add_comm 1 k]
    rfl
  have hrows : ∀ n : Nat, List.replicate n (splitComma line) ++ [splitComma line] =
      List.replicate (n + 1) (splitComma line) := by
    intro n
    rw [List.replicate_add]
    rfl
  have hrun := runLines_at_cap qt t neverStop headerLine (List.replicate 99 line) line
    (List.replicate k line) (fun _ _ => rfl)
    (by rw [matchedRows_replicate qt t _ line hm, List.length_replicate]) hm
  rw [show 100 + k = 99 + 1 + k from rfl, hsplit 99, hrun,
    matchedRows_replicate qt t _ line hm, List.length_replicate, hrows 99]

/-! ## The properties of the scan -/

/-- C8 as stated fails: with centre `(0.3, 0, 0)` and lag 1 the line `1.3,0,0` is delivered
in the result, but it does not lie in the closed window in exact arithmetic: the value of
the `double` 1.3 is above the value of the `double` 0.3 plus 1, to which the sum of the
code rounds. -/
theorem result_order_counterexample :
    qtAscii.toDouble "0.3".toList = some threeTenthsThread.centerX_ ∧
    dataReadyOf (threeTenthsThread.runLines qtAscii neverStop
        ["x,y,z".toList, "1.3,0,0".toList]).events =
      [[splitComma "x,y,z".toList, splitComma "1.3,0,0".toList]] ∧
    threeTenthsThread.parseCoordinatesFromRow qtAscii (splitComma "1.3,0,0".toList) =
      some (Double.finite ((5854679515581645 <<< 1022 : Nat) : Int), Double.finite 0,
        Double.finite 0) ∧
    ¬ threeTenthsThread.InExactWindow (Double.finite ((5854679515581645 <<< 1022 : Nat) : Int))
      (Double.finite 0) (Double.finite 0) := by
  refine ⟨by decide, by decide, by decide, ?_⟩
  intro h
  have hx := h.2.1
  rw [show threeTenthsThread.centerX_ =
      Double.finite ((5404319552844595 <<< 1020 : Nat) : Int) from rfl,
    show threeTenthsThread.lagValue_ = 1 from rfl, toRat_le_add_iff] at hx
  revert hx
  decide

/-- C8, amended (result order). An uncancelled scan emits exactly one `dataReady`, as its
last event, and its payload is the header row followed by the first `min(100, k)`
qualifying lines in file order, each stored as its comma-split fields; the qualifying
lines are the lines that are well-formed, parse to coordinates and lie in the window the
code tests, whose bounds are the `double` difference and sum of centre and lag. -/
theorem result_order (qt : QtText) (t : SearchThread) (headerLine : QString)
    (lines : List QString) :
    (∀ line, t.lineMatches qt (splitComma headerLine) line = true ↔
      t.Qualifies qt (splitComma headerLine) line) ∧
    dataReadyOf (t.runLines qt neverStop (headerLine :: lines)).events =
      [splitComma headerLine ::
        ((lines.filter (t.lineMatches qt (splitComma headerLine))).map splitComma).take 100] ∧
    (t.runLines qt neverStop (headerLine :: lines)).events.getLast? =
      some (Event.dataReady (splitComma headerLine ::
        ((lines.filter (t.lineMatches qt (splitComma headerLine))).map splitComma).take 100)) ∧
    (((lines.filter (t.lineMatches qt (splitComma headerLine))).map splitComma).take 100).length =
      min 100 (lines.filter (t.lineMatches qt (splitComma headerLine))).length := by
  obtain ⟨ps, hev, _⟩ := runLines_uncancelled qt t headerLine lines
  refine ⟨fun line => lineMatches_iff qt t _ line, ?_, ?_, ?_⟩
  · rw [hev, dataReadyOf_append]
    rw [dataReadyOf_map_progress]
    rfl
  · rw [hev, List.getLast?_concat]
    rfl
  · simp

/-- C2 (cap invariant). Whatever the file, the configuration and the stop polls, a result
that `run` delivers with `dataReady` is the header row of the file followed by at most 100
data rows, so it never has more than 101 rows. -/
theorem cap_invariant (qt : QtText) (t : SearchThread) (shouldStop : Nat → Bool)
    (file : Option (List Char)) (rows : List QStringList)
    (h : Event.dataReady rows ∈ (t.run qt shouldStop file).events) :
    rows.length ≤ 101 ∧
    ∃ content headerLine rest data,
      file = some content ∧ textLines content = headerLine :: rest ∧
      rows = splitComma headerLine :: data ∧ data.length ≤ 100 := by
  cases file with
  | none => simp [SearchThread.run] at h
  | some content =>
    rw [SearchThread.run] at h
    cases hl : textLines content with
    | nil =>
      rw [hl] at h
      simp [SearchThread.runLines] at h
    | cons headerLine rest =>
      rw [hl, SearchThread.runLines] at h
      obtain ⟨data, hrows, hlen⟩ :=
        scanLoop_dataReady_bound qt t shouldStop (splitComma headerLine) (splitComma headerLine)
          rest 0 ⟨0, 0, [splitComma headerLine]⟩ [] rfl rfl (by decide) rows h
      refine ⟨?_, content, headerLine, rest, data, rfl, hl, hrows, hlen⟩
      rw [hrows, List.length_cons]
      omega

/-- A file of 101 matching lines delivers the header and exactly 100 rows: the cap is
reached and the result has 101 rows. -/
theorem cap_invariant_witness :
    Event.dataReady (splitComma "id,x,y,z".toList ::
        List.replicate 100 (splitComma "1,0,0,0".toList)) ∈
      (scenario1Thread.run qtAscii neverStop (some cappedFile)).events ∧
    (splitComma "id,x,y,z".toList ::
      List.replicate 100 (splitComma "1,0,0,0".toList)).length ≤ 101 :=
  have hlines : textLines cappedFile =
      "id,x,y,z".toList :: List.replicate (100 + 1) "1,0,0,0".toList := by rfl
  have hmem : Event.dataReady (splitComma "id,x,y,z".toList ::
        List.replicate 100 (splitComma "1,0,0,0".toList)) ∈
      (scenario1Thread.run qtAscii neverStop (some cappedFile)).events := by
    rw [SearchThread.run, hlines,
      runLines_replicate_at_cap qtAscii scenario1Thread "id,x,y,z".toList "1,0,0,0".toList
        (by decide) 1]
    exact List.mem_append_right _ (List.mem_cons_of_mem _ (List.mem_singleton.2 rfl))
  ⟨hmem, (cap_invariant qtAscii scenario1Thread neverStop (some cappedFile) _ hmem).1⟩

/-- C1 as stated fails: with centre `(0.1, 0, 0)`, as the query `0.1 0 0` parses, and lag 1,
the well-formed line `1.1,0,0` parses and is appended, but its `x` is outside the window
in exact arithmetic: the value of the `double` 1.1 is above the value of the `double` 0.1
plus 1, and the `double` sum of the code rounds up to 1.1. -/
theorem exact_window_counterexample :
    qtAscii.toDouble "0.1".toList = some tenthThread.centerX_ ∧
    (0 : Int) ≤ tenthThread.lagValue_ ∧
    (splitComma "1.1,0,0".toList).length = (splitComma "x,y,z".toList).length ∧
    tenthThread.parseCoordinatesFromRow qtAscii (splitComma "1.1,0,0".toList) =
      some (Double.finite ((4953959590107546 <<< 1022 : Nat) : Int), Double.finite 0,
        Double.finite 0) ∧
    (tenthThread.runLines qtAscii neverStop
        ("x,y,z".toList :: ([] ++ ["1.1,0,0".toList]))).state.searchResult =
      (tenthThread.runLines qtAscii neverStop ("x,y,z".toList :: [])).state.searchResult ++
        [splitComma "1.1,0,0".toList] ∧
    ¬ ((Double.finite ((4953959590107546 <<< 1022 : Nat) : Int)).toRat ≤
      tenthThread.centerX_.toRat + (tenthThread.lagValue_ : ℚ)) := by
  refine ⟨by decide, by decide, by decide, by decide, by decide, ?_⟩
  rw [show tenthThread.centerX_ = Double.finite ((3602879701896397 <<< 1019 : Nat) : Int)
      from rfl,
    show tenthThread.lagValue_ = 1 from rfl, toRat_le_add_iff]
  decide

/-- C1, amended (predicate correctness). In an uncancelled scan, a well-formed data line
whose coordinates parse to `(x, y, z)` and before which fewer than 100 rows matched is
appended to the search result exactly when `x`, `y` and `z` each lie between the `double`
difference `c - lag` and the `double` sum `c + lag` of their axis, both rounded to nearest
and both ends included; otherwise the result stays as it was. For a finite centre and a lag
that is not negative, coordinates equal to the computed `c - lag` or `c + lag` are
included. Here the two results compared are the search result when the scan has processed
the lines up to, and up to and including, the line, and the result of the whole scan
starts with the latter. -/
theorem predicate_correct (qt : QtText) (t : SearchThread) (headerLine : QString)
    (pre : List QString) (line : QString) (x y z : Double)
    (hlag : 0 ≤ t.lagValue_)
    (hwf : (splitComma line).length = (splitComma headerLine).length)
    (hparse : t.parseCoordinatesFromRow qt (splitComma line) = some (x, y, z))
    (hcap : (t.matchedRows qt (splitComma headerLine) pre).length < 100) :
    ((t.runLines qt neverStop (headerLine :: (pre ++ [line]))).state.searchResult =
        (t.runLines qt neverStop (headerLine :: pre)).state.searchResult ++ [splitComma line] ↔
      ((t.centerX_.sub (Double.ofInt t.lagValue_)).le x = true ∧
        x.le (t.centerX_.add (Double.ofInt t.lagValue_)) = true ∧
        (t.centerY_.sub (Double.ofInt t.lagValue_)).le y = true ∧
        y.le (t.centerY_.add (Double.ofInt t.lagValue_)) = true ∧
        (t.centerZ_.sub (Double.ofInt t.lagValue_)).le z = true ∧
        z.le (t.centerZ_.add (Double.ofInt t.lagValue_)) = true)) ∧
    ((t.runLines qt neverStop (headerLine :: (pre ++ [line]))).state.searchResult =
        (t.runLines qt neverStop (headerLine :: pre)).state.searchResult ++ [splitComma line] ∨
      (t.runLines qt neverStop (headerLine :: (pre ++ [line]))).state.searchResult =
        (t.runLines qt neverStop (headerLine :: pre)).state.searchResult) ∧
    (∀ cx cy cz : Int,
      t.centerX_ = Double.finite cx → t.centerY_ = Double.finite cy →
      t.centerZ_ = Double.finite cz →
      (x = t.centerX_.sub (Double.ofInt t.lagValue_) ∨
        x = t.centerX_.add (Double.ofInt t.lagValue_)) →
      (y = t.centerY_.sub (Double.ofInt t.lagValue_) ∨
        y = t.centerY_.add (Double.ofInt t.lagValue_)) →
      (z = t.centerZ_.sub (Double.ofInt t.lagValue_) ∨
        z = t.centerZ_.add (Double.ofInt t.lagValue_)) →
      (t.runLines qt neverStop (headerLine :: (pre ++ [line]))).state.searchResult =
        (t.runLines qt neverStop (headerLine :: pre)).state.searchResult ++ [splitComma line]) ∧
    ∀ post,
      (t.runLines qt neverStop (headerLine :: (pre ++ [line]))).state.searchResult <+:
        (t.runLines qt neverStop (headerLine :: (pre ++ line :: post))).state.searchResult := by
  have hm := lineMatches_of_parse qt t (splitComma headerLine) line x y z hwf hparse
  have hbefore := runLines_below_cap qt t neverStop headerLine pre (fun _ _ => rfl) hcap
  have hyes : t.InComputedWindow x y z →
      (t.runLines qt neverStop (headerLine :: (pre ++ [line]))).state.searchResult =
        (t.runLines qt neverStop (headerLine :: pre)).state.searchResult ++ [splitComma line] := by
    intro hw
    obtain ⟨_, _, hsr⟩ := runLines_uncancelled qt t headerLine (pre ++ [line])
    rw [hsr, hbefore, matchedRows_append, matchedRows_cons, if_pos (hm.2 hw), matchedRows_nil,
      List.take_of_length_le (by simp; omega)]
    rfl
  have hno : ¬ t.InComputedWindow x y z →
      (t.runLines qt neverStop (headerLine :: (pre ++ [line]))).state.searchResult =
        (t.runLines qt neverStop (headerLine :: pre)).state.searchResult := by
    intro hw
    obtain ⟨_, _, hsr⟩ := runLines_uncancelled qt t headerLine (pre ++ [line])
    have hf : ¬ t.lineMatches qt (splitComma headerLine) line = true := fun h => hw (hm.1 h)
    rw [hsr, hbefore, matchedRows_append, matchedRows_cons, if_neg hf, matchedRows_nil,
      List.append_nil, List.take_of_length_le (by omega)]
  refine ⟨⟨?_, hyes⟩, ?_, ?_, ?_⟩
  · intro heq
    by_contra hw
    rw [hno hw] at heq
    have := congrArg List.length heq
    simp at this
  · by_cases hw : t.InComputedWindow x y z
    · exact Or.inl (hyes hw)
    · exact Or.inr (hno hw)
  · intro cx cy cz hcx hcy hcz hx hy hz
    apply hyes
    rw [hcx] at hx
    rw [hcy] at hy
    rw [hcz] at hz
    have bx := in_bounds_of_eq cx t.lagValue_ hlag x hx
    have by' := in_bounds_of_eq cy t.lagValue_ hlag y hy
    have bz := in_bounds_of_eq cz t.lagValue_ hlag z hz
    unfold SearchThread.InComputedWindow
    rw [hcx, hcy, hcz]
    exact ⟨bx.1, bx.2, by'.1, by'.2, bz.1, bz.2⟩
  · intro post
    obtain ⟨_, _, hsr⟩ := runLines_uncancelled qt t headerLine (pre ++ [line])
    obtain ⟨_, _, hsr'⟩ := runLines_uncancelled qt t headerLine (pre ++ line :: post)
    rw [hsr, hsr']
    have hpre : t.matchedRows qt (splitComma headerLine) (pre ++ [line]) <+:
        t.matchedRows qt (splitComma headerLine) (pre ++ line :: post) := by
      have : pre ++ line :: post = (pre ++ [line]) ++ post := by simp
      rw [this, matchedRows_append qt t _ (pre ++ [line]) post]
      exact List.prefix_append _ _
    obtain ⟨r, hr⟩ := hpre.take 100
    exact ⟨r, by rw [List.cons_append, hr]⟩

/-- The first data line of the first example scenario, `1,0,0,0` under the header
`id,x,y,z`, is well-formed, parses to `(0, 0, 0)`, lies in the window and is appended. -/
theorem predicate_correct_witness :
    (scenario1Thread.runLines qtAscii neverStop
        ("id,x,y,z".toList :: ([] ++ ["1,0,0,0".toList]))).state.searchResult =
      (scenario1Thread.runLines qtAscii neverStop ("id,x,y,z".toList :: [])).state.searchResult
        ++ [splitComma "1,0,0,0".toList] :=
  ((predicate_correct qtAscii scenario1Thread "id,x,y,z".toList [] "1,0,0,0".toList
    (Double.finite 0) (Double.finite 0) (Double.finite 0)
    (by decide) (by decide) (by decide) (by decide)).1).2 (by decide)

/-- C3 (malformed-row tolerance). A data line whose field count differs from the header's,
or whose designated coordinate field or fields do not parse, does not pass the condition
for being appended; the result of an uncancelled scan of a file that holds the line is the
result of the file without it; and the scan emits no `errorOccurred` and exactly one
`dataReady`, as its last event. -/
theorem malformed_row_tolerated (qt : QtText) (t : SearchThread) (headerLine : QString)
    (pre : List QString) (line : QString) (post : List QString)
    (h : t.Malformed qt (splitComma headerLine) line) :
    t.lineMatches qt (splitComma headerLine) line = false ∧
    (t.runLines qt neverStop (headerLine :: (pre ++ line :: post))).state.searchResult =
      (t.runLines qt neverStop (headerLine :: (pre ++ post))).state.searchResult ∧
    errorsOf (t.runLines qt neverStop (headerLine :: (pre ++ line :: post))).events = [] ∧
    dataReadyOf (t.runLines qt neverStop (headerLine :: (pre ++ line :: post))).events =
      [(t.runLines qt neverStop (headerLine :: (pre ++ post))).state.searchResult] ∧
    (t.runLines qt neverStop (headerLine :: (pre ++ line :: post))).events.getLast? =
      some (Event.dataReady
        (t.runLines qt neverStop (headerLine :: (pre ++ post))).state.searchResult) := by
  have hm := lineMatches_of_malformed qt t (splitComma headerLine) line h
  obtain ⟨ps, hev, hsr⟩ := runLines_uncancelled qt t headerLine (pre ++ line :: post)
  obtain ⟨_, _, hsr'⟩ := runLines_uncancelled qt t headerLine (pre ++ post)
  have hrows : t.matchedRows qt (splitComma headerLine) (pre ++ line :: post) =
      t.matchedRows qt (splitComma headerLine) (pre ++ post) := by
    rw [matchedRows_append, matchedRows_cons, hm, matchedRows_append]
    simp
  rw [hrows] at hev hsr
  refine ⟨hm, by rw [hsr, hsr'], ?_, ?_, ?_⟩
  · rw [hev, errorsOf_append, errorsOf_map_progress]
    rfl
  · rw [hev, dataReadyOf_append, dataReadyOf_map_progress, hsr']
    rfl
  · rw [hev, List.getLast?_concat, hsr']

/-- The third example scenario: the line `1,abc,0,0` under the header `id,x,y,z` is
malformed, its `x` field does not parse. -/
theorem malformed_row_tolerated_witness :
    scenario1Thread.Malformed qtAscii (splitComma "id,x,y,z".toList) "1,abc,0,0".toList ∧
    errorsOf (scenario1Thread.runLines qtAscii neverStop
      ("id,x,y,z".toList :: ([] ++ "1,abc,0,0".toList :: []))).events = [] :=
  ⟨Or.inr (Or.inr ⟨by decide, Or.inl (by decide)⟩),
    (malformed_row_tolerated qtAscii scenario1Thread "id,x,y,z".toList [] "1,abc,0,0".toList []
      (Or.inr (Or.inr ⟨by decide, Or.inl (by decide)⟩))).2.2.1⟩

/-- C5 (cancellation). In the sequential model in which `shouldStop k` is the value of the
flag at the `k`-th poll: if a poll `k` that comes before the end of the file and before
the hundredth match sees the flag set, `run` emits neither `dataReady` nor
`errorOccurred`; it returns at the first poll `k'` that sees the flag, having emitted the
formula progress of the `k'` lines before it, and its search result holds the header and
the matching rows of those `k'` lines only. -/
theorem cancellation (qt : QtText) (t : SearchThread) (shouldStop : Nat → Bool)
    (headerLine : QString) (lines : List QString) (k : Nat)
    (hk : shouldStop k = true) (hlen : k < lines.length)
    (hcap : (t.matchedRows qt (splitComma headerLine) (lines.take k)).length < 100) :
    dataReadyOf (t.runLines qt shouldStop (headerLine :: lines)).events = [] ∧
    errorsOf (t.runLines qt shouldStop (headerLine :: lines)).events = [] ∧
    ∃ k', k' ≤ k ∧ shouldStop k' = true ∧ (∀ j, j < k' → shouldStop j = false) ∧
      (t.runLines qt shouldStop (headerLine :: lines)).events =
        (List.range k').map
          (fun (i : Nat) => Event.progressChanged (t.progress (wrapInt32 ((i : Int) + 1)))) ∧
      (t.runLines qt shouldStop (headerLine :: lines)).state.searchResult =
        splitComma headerLine :: t.matchedRows qt (splitComma headerLine) (lines.take k') := by
  have hex : ∃ n, shouldStop n = true := ⟨k, hk⟩
  have hle : Nat.find hex ≤ k := Nat.find_le hk
  have hfirst : ∀ j, j < Nat.find hex → shouldStop j = false := by
    intro j hj
    simpa using Nat.find_min hex hj
  have hcap' : (t.matchedRows qt (splitComma headerLine) (lines.take (Nat.find hex))).length
      < 100 := by
    have hsplit : lines.take k = lines.take (Nat.find hex) ++
        (lines.drop (Nat.find hex)).take (k - Nat.find hex) := by
      rw [← List.take_add]
      congr 1
      omega
    rw [hsplit, matchedRows_append, List.length_append] at hcap
    omega
  have hrun := runLines_stopped qt t shouldStop headerLine lines (Nat.find hex) hfirst
    (Nat.find_spec hex) (by omega) hcap'
  rw [hrun]
  refine ⟨dataReadyOf_progressTrail t _ 0, errorsOf_progressTrail t _ 0, Nat.find hex, hle,
    Nat.find_spec hex, hfirst, progressTrail_zero_eq t _, rfl⟩

/-- The sixth example scenario in small: a stop requested before the second of three lines
is read. -/
theorem cancellation_witness :
    dataReadyOf (scenario1Thread.runLines qtAscii (fun k => decide (1 ≤ k))
      ("id,x,y,z".toList :: ["a".toList, "b".toList, "c".toList])).events = [] :=
  (cancellation qtAscii scenario1Thread (fun k => decide (1 ≤ k)) "id,x,y,z".toList
    ["a".toList, "b".toList, "c".toList] 1 (by decide) (by decide) (by decide)).1

/-- C10 (flush at cap). In an uncancelled scan in which at least 100 lines qualify, let `l`
be the hundredth qualifying line, `pre` the lines before it and `post` the lines after it.
The scan emits one formula progress for each line of `pre`, then `progressChanged(100)`
and directly after it `dataReady`, and nothing else, so no formula progress is emitted for
`l`; the result has the header and exactly 100 data rows; `linesProcessed` ends as the
number of `l`; and the lines of `post` play no part, whatever `totalLinesCount_` is. -/
theorem flush_at_cap (qt : QtText) (t : SearchThread) (headerLine : QString)
    (lines : List QString)
    (h : 100 ≤ (lines.filter (t.lineMatches qt (splitComma headerLine))).length) :
    ∃ pre l post, lines = pre ++ l :: post ∧
      (pre.filter (t.lineMatches qt (splitComma headerLine))).length = 99 ∧
      t.lineMatches qt (splitComma headerLine) l = true ∧
      (t.runLines qt neverStop (headerLine :: lines)).events =
        (List.range pre.length).map
            (fun (i : Nat) => Event.progressChanged (t.progress (wrapInt32 ((i : Int) + 1)))) ++
          [Event.progressChanged 100,
            Event.dataReady (splitComma headerLine ::
              ((pre ++ [l]).filter (t.lineMatches qt (splitComma headerLine))).map splitComma)] ∧
      (splitComma headerLine ::
        ((pre ++ [l]).filter (t.lineMatches qt (splitComma headerLine))).map splitComma).length
          = 101 ∧
      (t.runLines qt neverStop (headerLine :: lines)).events.length = pre.length + 2 ∧
      (t.runLines qt neverStop (headerLine :: lines)).state.linesProcessed =
        wrapInt32 ((pre.length : Int) + 1) ∧
      t.runLines qt neverStop (headerLine :: lines) =
        t.runLines qt neverStop (headerLine :: (pre ++ [l])) := by
  obtain ⟨pre, l, post, hl, hc, hx⟩ :=
    exists_split_at_count (t.lineMatches qt (splitComma headerLine)) lines 99 (by omega)
  have hc' : (t.matchedRows qt (splitComma headerLine) pre).length = 99 := by
    rw [matchedRows_length, hc]
  have hrun := runLines_at_cap qt t neverStop headerLine pre l post (fun _ _ => rfl) hc' hx
  have hrun' := runLines_at_cap qt t neverStop headerLine pre l [] (fun _ _ => rfl) hc' hx
  have hrows : ((pre ++ [l]).filter (t.lineMatches qt (splitComma headerLine))).map splitComma =
      t.matchedRows qt (splitComma headerLine) pre ++ [splitComma l] := by
    simp [SearchThread.matchedRows, List.filter_append, hx]
  refine ⟨pre, l, post, hl, hc, hx, ?_, ?_, ?_, ?_, ?_⟩
  · rw [hl, hrun, hrows, progressTrail_zero_eq]
  · rw [hrows]
    simp [hc']
  · rw [hl, hrun]
    simp [progressTrail_length]
  · rw [hl, hrun, countedAfter_zero]
    push_cast
    rfl
  · rw [hl, hrun, hrun']

/-- A file of a hundred copies of a line in the window reaches the cap at its last
line. -/
theorem flush_at_cap_witness :
    ∃ pre l post, List.replicate 100 "1,0,0,0".toList = pre ++ l :: post ∧
      (pre.filter (scenario1Thread.lineMatches qtAscii (splitComma "id,x,y,z".toList))).length
        = 99 ∧
      scenario1Thread.lineMatches qtAscii (splitComma "id,x,y,z".toList) l = true ∧
      (scenario1Thread.runLines qtAscii neverStop
          ("id,x,y,z".toList :: List.replicate 100 "1,0,0,0".toList)).events =
        (List.range pre.length).map
            (fun (i : Nat) =>
              Event.progressChanged (scenario1Thread.progress (wrapInt32 ((i : Int) + 1)))) ++
          [Event.progressChanged 100,
            Event.dataReady (splitComma "id,x,y,z".toList ::
              ((pre ++ [l]).filter
                (scenario1Thread.lineMatches qtAscii (splitComma "id,x,y,z".toList))).map
                  splitComma)] ∧
      (splitComma "id,x,y,z".toList ::
        ((pre ++ [l]).filter
          (scenario1Thread.lineMatches qtAscii (splitComma "id,x,y,z".toList))).map
            splitComma).length = 101 ∧
      (scenario1Thread.runLines qtAscii neverStop
          ("id,x,y,z".toList :: List.replicate 100 "1,0,0,0".toList)).events.length
        = pre.length + 2 ∧
      (scenario1Thread.runLines qtAscii neverStop
          ("id,x,y,z".toList :: List.replicate 100 "1,0,0,0".toList)).state.linesProcessed =
        wrapInt32 ((pre.length : Int) + 1) ∧
      scenario1Thread.runLines qtAscii neverStop
          ("id,x,y,z".toList :: List.replicate 100 "1,0,0,0".toList) =
        scenario1Thread.runLines qtAscii neverStop ("id,x,y,z".toList :: (pre ++ [l])) :=
  flush_at_cap qtAscii scenario1Thread "id,x,y,z".toList (List.replicate 100 "1,0,0,0".toList)
    (by
      rw [List.filter_replicate_of_pos (by decide), List.length_replicate])

/-- C9 (last duplicate wins). After `resolveCoordinateColumns`, the index of each role is
the highest index whose trimmed, lower-cased header name is the name of the role
(`relativelocation` or `relative_location` for the combined role; `x`, `y`, `z` for the
separate roles) and `-1` when no header has it; and the function returns `true` exactly
when the combined index, or each of the three separate indices, is not negative. -/
theorem last_duplicate_wins (qt : QtText) (headers : QStringList) :
    IsLastMatch
      (fun h => headerName qt h = "relativelocation".toList ∨
        headerName qt h = "relative_location".toList)
      headers (resolveCoordinateColumns qt headers).2.relativeLocationColumn ∧
    IsLastMatch (fun h => headerName qt h = ['x']) headers
      (resolveCoordinateColumns qt headers).2.xColumn ∧
    IsLastMatch (fun h => headerName qt h = ['y']) headers
      (resolveCoordinateColumns qt headers).2.yColumn ∧
    IsLastMatch (fun h => headerName qt h = ['z']) headers
      (resolveCoordinateColumns qt headers).2.zColumn ∧
    ((resolveCoordinateColumns qt headers).1 = true ↔
      (0 ≤ (resolveCoordinateColumns qt headers).2.relativeLocationColumn ∨
        (0 ≤ (resolveCoordinateColumns qt headers).2.xColumn ∧
          0 ≤ (resolveCoordinateColumns qt headers).2.yColumn ∧
          0 ≤ (resolveCoordinateColumns qt headers).2.zColumn))) := by
  refine ⟨?_, ?_, ?_, ?_, resolveCoordinateColumns_fst qt headers⟩
  · rw [resolveCoordinateColumns_snd]
    exact (lastIndexFrom_isLastMatch _ headers).congr
      (fun h => isCombinedName_iff (headerName qt h))
  · rw [resolveCoordinateColumns_snd]
    exact (lastIndexFrom_isLastMatch _ headers).congr (fun h => by simp)
  · rw [resolveCoordinateColumns_snd]
    exact (lastIndexFrom_isLastMatch _ headers).congr (fun h => by simp)
  · rw [resolveCoordinateColumns_snd]
    exact (lastIndexFrom_isLastMatch _ headers).congr (fun h => by simp)

/-- C6 (progress monotonicity), at a file of 21474837 data lines none of which matches: the
product `linesProcessed * 100` leaves the range of `int` at the last line, and the progress
values, 99 for the line before it, end with -99, which is below 0 and below the value
before it. -/
theorem progress_overflow :
    (progressOf (longFileThread.runLines qtAscii neverStop
      ("x,y,z".toList :: List.replicate 21474837 "1,1,1".toList)).events)[21474835]? = some 99 ∧
    (progressOf (longFileThread.runLines qtAscii neverStop
      ("x,y,z".toList :: List.replicate 21474837 "1,1,1".toList)).events)[21474836]?
        = some (-99) := by
  have hm : longFileThread.lineMatches qtAscii (splitComma "x,y,z".toList) "1,1,1".toList
      = false := by
    decide
  have h1 : longFileThread.progress (wrapInt32 (((21474835 : Nat) : Int) + 1)) = 99 := by
    decide
  have h2 : longFileThread.progress (wrapInt32 (((21474836 : Nat) : Int) + 1)) = -99 := by
    decide
  rw [progressOf_runLines_replicate qtAscii longFileThread "x,y,z".toList "1,1,1".toList hm]
  exact ⟨by rw [getElem?_map_range _ _ _ (by decide), h1],
    by rw [getElem?_map_range _ _ _ (by decide), h2]⟩

/-- C7 as stated fails: in a file whose first line is empty and is followed by another
line, `run` emits no `errorOccurred`; it takes the empty line as the header, processes the
next line and delivers a result. -/
theorem empty_first_line_counterexample :
    (textLines ['\n', 'a', '\n']).head? = some [] ∧
    (scenario1Thread.run qtAscii neverStop (some ['\n', 'a', '\n'])).events =
      [Event.progressChanged 50, Event.dataReady [[[]]]] := by
  decide

/-- C7, amended (empty source). For a source that can be opened, if its first line is
absent, which is the case exactly when the file holds no character other than carriage
returns (the text-mode stream drops them), `run` emits `errorOccurred` with the message
"CSV file is empty." as its only event, and so no `progressChanged` and no `dataReady`. -/
theorem empty_source (qt : QtText) (t : SearchThread) (shouldStop : Nat → Bool)
    (content : List Char) (h : textLines content = []) :
    (t.run qt shouldStop (some content)).events = [Event.errorOccurred "CSV file is empty."] ∧
    progressOf (t.run qt shouldStop (some content)).events = [] ∧
    dataReadyOf (t.run qt shouldStop (some content)).events = [] ∧
    (textLines content = [] ↔ ∀ c ∈ content, c = '\r') := by
  have hev : (t.run qt shouldStop (some content)).events =
      [Event.errorOccurred "CSV file is empty."] := by
    rw [SearchThread.run, h]
    rfl
  rw [hev]
  exact ⟨rfl, rfl, rfl, textLines_eq_nil content⟩

/-- A file without content has no first line and gives the error. -/
theorem empty_source_witness :
    textLines [] = [] ∧
    (scenario1Thread.run qtAscii neverStop (some [])).events =
      [Event.errorOccurred "CSV file is empty."] :=
  ⟨rfl, (empty_source qtAscii scenario1Thread neverStop [] rfl).1⟩

end LocationFinder
